import Mathlib

/-!
Verification of the Risk-Aware-Router repository.

The source (`src/risk_router.py`, duplicated in `src/app.py`) implements a
lazy-deletion Dijkstra search `calculate_optimal_route(graph, start, end,
weight_type)` over a `networkx.Graph`, plus a fixed `build_city_map()` graph.

Shallow embedding choices:
* Nodes are strings; numeric edge attributes are modelled as integers.
* A `networkx.Graph` is embedded through the adjacency view the search
  actually uses: an association list from node to an association list of
  (neighbor, attribute dict) pairs.  Python dicts are association lists with
  unique keys, looked up by first match; dict update keeps the position of an
  existing key and appends new keys, which `updateAssoc` mirrors.
* `heapq` stores `(cost, node, path)` tuples ordered lexicographically
  (ints, then strings by code point, then lists of strings); `heappop`
  returns the least element.  All entries ever in the queue are pairwise
  distinct, so modelling the heap as a list with a "remove the least
  element" operation (`popMin`) is exact.
* `graph[node]` raises `KeyError` for a node that is not in the graph;
  the embedding returns `RouteResult.keyErr`.
* The `while queue:` loop is embedded with explicit fuel; `initFuel`
  is proved sufficient, so `RouteResult.fuelOut` is never returned.
* `float('inf'), []` — the unreachable sentinel — is `RouteResult.noPath`.
-/

namespace RiskRouter

abbrev Node := String

/-- An edge attribute dict, e.g. `{'distance': 5, 'risk': 2}`. -/
abbrev Attrs := List (String × Int)

/-- Adjacency dict of one node: neighbor ↦ attribute dict. -/
abbrev AdjList := List (Node × Attrs)

/-- The adjacency structure of a `networkx.Graph`: node ↦ adjacency dict. -/
abbrev Graph := List (Node × AdjList)

/-- First-match association-list lookup: Python dict lookup. -/
def lookupA {α : Type} : List (String × α) → String → Option α
  | [], _ => none
  | (k, a) :: rest, n => if k = n then some a else lookupA rest n

/-- Python dict write `d[k] = b`: overwrite in place or append a new key. -/
def updateAssoc {α : Type} : List (String × α) → String → α → List (String × α)
  | [], k, b => [(k, b)]
  | (k1, a) :: rest, k, b =>
      if k1 = k then (k, b) :: rest else (k1, a) :: updateAssoc rest k b

/-- `attributes.get(weight_type, 1)` from the source: a missing attribute
defaults to weight 1. -/
def getAttr (attrs : Attrs) (key : String) : Int :=
  (lookupA attrs key).getD 1

/-- `graph[node]`: `some` adjacency dict, or `none` = `KeyError`. -/
def adjOf (g : Graph) (u : Node) : Option AdjList :=
  lookupA g u

/-- The node keys of the graph, in construction order. -/
def graphNodes (g : Graph) : List Node :=
  g.map Prod.fst

/-- All neighbor names mentioned anywhere in the adjacency structure. -/
def nbrNodes (g : Graph) : List Node :=
  (g.map fun p => p.2.map Prod.fst).flatten

/-- Total number of adjacency entries (sum of the degrees). -/
def totalAdj (g : Graph) : Nat :=
  (g.map fun p => p.2.length).sum

/-- A queue element `(current_cost, current_node, path_taken)`. -/
structure Entry where
  cost : Int
  node : Node
  path : List Node
deriving DecidableEq

/-- Python string comparison: lexicographic on code points. -/
def charListLt : List Char → List Char → Bool
  | [], [] => false
  | [], _ :: _ => true
  | _ :: _, [] => false
  | a :: as, b :: bs =>
      if a.toNat < b.toNat then true
      else if b.toNat < a.toNat then false
      else charListLt as bs

/-- Python string comparison, on the underlying character lists. -/
def strLt (a b : String) : Bool :=
  charListLt a.data b.data

/-- Python list comparison on lists of strings (lexicographic). -/
def listStrLt : List String → List String → Bool
  | [], [] => false
  | [], _ :: _ => true
  | _ :: _, [] => false
  | a :: as, b :: bs =>
      if strLt a b then true else if strLt b a then false else listStrLt as bs

/-- Python tuple comparison on `(cost, node, path)` heap entries. -/
def entryLt (x y : Entry) : Bool :=
  if x.cost < y.cost then true
  else if y.cost < x.cost then false
  else if strLt x.node y.node then true
  else if strLt y.node x.node then false
  else listStrLt x.path y.path

/-- `heapq.heappop`: remove and return the least entry (first-least on
duplicates, which never occur in reachable states). -/
def popMin : List Entry → Option (Entry × List Entry)
  | [] => none
  | e :: es =>
      match popMin es with
      | none => some (e, [])
      | some (m, rest) => if entryLt m e then some (m, e :: rest) else some (e, es)

/-- Result of `calculate_optimal_route`.  `found` is the `return cost, path`;
`noPath` is `return float('inf'), []`; `keyErr` is the `KeyError` that
`graph[node]` raises for an unknown node; `fuelOut` is an artefact of the
fuel-based embedding and is proved unreachable. -/
inductive RouteResult where
  | found (cost : Int) (path : List Node)
  | noPath
  | keyErr (n : Node)
  | fuelOut
deriving DecidableEq

/-- `neighbor not in min_costs or new_cost < min_costs[neighbor]`. -/
def pushTest (m : List (Node × Int)) (nbr : Node) (nc : Int) : Bool :=
  match lookupA m nbr with
  | none => true
  | some old => decide (nc < old)

/-- The `for neighbor, attributes in graph[node].items():` loop body:
relax every neighbor, updating `min_costs` and pushing queue entries. -/
def relaxAll (visited : List Node) (cost : Int) (npath : List Node) (key : String) :
    AdjList → List (Node × Int) → List Entry → List (Node × Int) × List Entry
  | [], m, q => (m, q)
  | (nbr, attrs) :: rest, m, q =>
      let nc := cost + getAttr attrs key
      if nbr ∈ visited then
        relaxAll visited cost npath key rest m q
      else if pushTest m nbr nc then
        relaxAll visited cost npath key rest (updateAssoc m nbr nc)
          (q ++ [⟨nc, nbr, npath⟩])
      else
        relaxAll visited cost npath key rest m q

/-- The `while queue:` loop of `calculate_optimal_route`. -/
def loop (g : Graph) (endNode : Node) (key : String) :
    Nat → List Entry → List Node → List (Node × Int) → RouteResult
  | 0, _, _, _ => .fuelOut
  | fuel + 1, q, visited, m =>
      match popMin q with
      | none => .noPath
      | some (en, rest) =>
          if en.node ∈ visited then
            loop g endNode key fuel rest visited m
          else
            let npath := en.path ++ [en.node]
            let visited1 := en.node :: visited
            if en.node = endNode then
              .found en.cost npath
            else
              match adjOf g en.node with
              | none => .keyErr en.node
              | some al =>
                  let mq := relaxAll visited1 en.cost npath key al m rest
                  loop g endNode key fuel mq.2 visited1 mq.1

/-- Every node name the search can ever enqueue. -/
def uni (g : Graph) (s : Node) : List Node :=
  s :: (graphNodes g ++ nbrNodes g)

/-- Fuel that strictly dominates the loop measure of the initial state. -/
def initFuel (g : Graph) (s : Node) : Nat :=
  2 + (totalAdj g + 1) * (uni g s).length

/-- `calculate_optimal_route(graph, start_node, end_node, weight_type)`. -/
def calculate_optimal_route (g : Graph) (startNode endNode : Node) (key : String) :
    RouteResult :=
  loop g endNode key (initFuel g startNode) [⟨0, startNode, []⟩] [] [(startNode, 0)]

/-- `G.add_edge(u, v, **attrs)` of `networkx.Graph`: ensure both endpoints are
nodes, merge the new attributes into the existing attribute dict of the edge,
and store the result in both adjacency directions. -/
def addEdge (g : Graph) (u v : Node) (attrs : Attrs) : Graph :=
  let g1 := if (lookupA g u).isSome then g else g ++ [(u, [])]
  let g2 := if (lookupA g1 v).isSome then g1 else g1 ++ [(v, [])]
  let old := (lookupA ((lookupA g2 u).getD []) v).getD []
  let merged := attrs.foldl (fun acc kv => updateAssoc acc kv.1 kv.2) old
  let g3 := updateAssoc g2 u (updateAssoc ((lookupA g2 u).getD []) v merged)
  updateAssoc g3 v (updateAssoc ((lookupA g3 v).getD []) u merged)

/-- `build_city_map()` from the source: the fixed 7-road map. -/
def build_city_map : Graph :=
  let roads : List (Node × Node × Int × Int) :=
    [("Home", "A", 5, 2),
     ("Home", "B", 15, 1),
     ("A", "C", 5, 8),
     ("B", "C", 5, 1),
     ("A", "Office", 20, 5),
     ("C", "Office", 5, 2),
     ("B", "Office", 25, 1)]
  roads.foldl
    (fun g r => addEdge g r.1 r.2.1 [("distance", r.2.2.1), ("risk", r.2.2.2)])
    []

end RiskRouter

namespace RiskRouter

/-! ### Association-list lemmas -/

theorem lookupA_mem {α : Type} {l : List (String × α)} {k : String} {a : α}
    (h : lookupA l k = some a) : (k, a) ∈ l := by
  induction l with
  | nil => simp [lookupA] at h
  | cons p rest ih =>
      obtain ⟨k1, b⟩ := p
      by_cases hk : k1 = k
      · subst hk
        simp [lookupA] at h
        simp [h]
      · simp [lookupA, hk] at h
        exact List.mem_cons_of_mem _ (ih h)

theorem lookupA_eq_none_iff {α : Type} {l : List (String × α)} {k : String} :
    lookupA l k = none ↔ k ∉ l.map Prod.fst := by
  induction l with
  | nil => simp [lookupA]
  | cons p rest ih =>
      obtain ⟨k1, b⟩ := p
      by_cases hk : k1 = k
      · subst hk
        simp [lookupA]
      · simp [lookupA, hk, ih, Ne.symm hk]

theorem lookupA_isSome_of_mem {α : Type} {l : List (String × α)} {k : String} {a : α}
    (hm : (k, a) ∈ l) : ∃ b, lookupA l k = some b := by
  induction l with
  | nil => simp at hm
  | cons p rest ih =>
      obtain ⟨k1, b⟩ := p
      by_cases hk : k1 = k
      · subst hk
        exact ⟨b, by simp [lookupA]⟩
      · rcases List.mem_cons.mp hm with h | h
        · cases h
          exact absurd rfl hk
        · simpa [lookupA, hk] using ih h

theorem lookupA_of_mem_nodup {α : Type} {l : List (String × α)} {k : String} {a : α}
    (hnd : (l.map Prod.fst).Nodup) (hm : (k, a) ∈ l) : lookupA l k = some a := by
  induction l with
  | nil => simp at hm
  | cons p rest ih =>
      obtain ⟨k1, b⟩ := p
      simp only [List.map_cons, List.nodup_cons] at hnd
      rcases List.mem_cons.mp hm with h | h
      · cases h
        simp [lookupA]
      · have hk : k1 ≠ k := by
          intro hkeq
          subst hkeq
          exact hnd.1 (List.mem_map.mpr ⟨(k1, a), h, rfl⟩)
        simpa [lookupA, hk] using ih hnd.2 h

theorem lookupA_update_self {α : Type} (m : List (String × α)) (k : String) (b : α) :
    lookupA (updateAssoc m k b) k = some b := by
  induction m with
  | nil => simp [updateAssoc, lookupA]
  | cons p rest ih =>
      obtain ⟨k1, a⟩ := p
      by_cases hk : k1 = k
      · subst hk
        simp [updateAssoc, lookupA]
      · simpa [updateAssoc, lookupA, hk] using ih

theorem lookupA_update_ne {α : Type} (m : List (String × α)) {k k1 : String} (b : α)
    (h : k1 ≠ k) : lookupA (updateAssoc m k b) k1 = lookupA m k1 := by
  induction m with
  | nil => simp [updateAssoc, lookupA, Ne.symm h]
  | cons p rest ih =>
      obtain ⟨k2, a⟩ := p
      by_cases hk : k2 = k
      · subst hk
        simp [updateAssoc, lookupA, Ne.symm h]
      · by_cases hk1 : k2 = k1
        · subst hk1
          simp [updateAssoc, lookupA, hk]
        · simpa [updateAssoc, lookupA, hk, hk1] using ih

/-! ### The heap-entry order -/

theorem charListLt_irrefl (l : List Char) : charListLt l l = false := by
  induction l with
  | nil => rfl
  | cons a as ih => simp [charListLt, ih]

theorem charListLt_asymm {a b : List Char} (h : charListLt a b = true) :
    charListLt b a = false := by
  induction a generalizing b with
  | nil =>
      cases b with
      | nil => simp [charListLt] at h
      | cons x xs => rfl
  | cons x xs ih =>
      cases b with
      | nil => simp [charListLt] at h
      | cons y ys =>
          simp only [charListLt] at h ⊢
          rcases Nat.lt_trichotomy x.toNat y.toNat with hlt | heq | hgt
          · simp [hlt, Nat.not_lt_of_lt hlt, Nat.lt_irrefl]
          · simp only [heq, Nat.lt_irrefl, if_false] at h ⊢
            exact ih h
          · simp [hgt, Nat.not_lt_of_lt hgt] at h

theorem charListLt_neg_trans {a b c : List Char} (hab : charListLt a b = false)
    (hbc : charListLt b c = false) : charListLt a c = false := by
  induction a generalizing b c with
  | nil =>
      cases b with
      | nil =>
          cases c with
          | nil => rfl
          | cons z zs => simp [charListLt] at hbc
      | cons y ys => simp [charListLt] at hab
  | cons x xs ih =>
      cases b with
      | nil =>
          cases c with
          | nil => rfl
          | cons z zs => simp [charListLt] at hbc
      | cons y ys =>
          cases c with
          | nil => rfl
          | cons z zs =>
              simp only [charListLt] at hab hbc ⊢
              rcases Nat.lt_trichotomy x.toNat y.toNat with h1 | h1 | h1
              · simp [h1] at hab
              · rcases Nat.lt_trichotomy y.toNat z.toNat with h2 | h2 | h2
                · simp [h2] at hbc
                · simp only [h1, h2, Nat.lt_irrefl, if_false] at hab hbc ⊢
                  exact ih hab hbc
                · have : ¬ x.toNat < z.toNat := by omega
                  have h3 : z.toNat < x.toNat := by omega
                  simp [this, h3]
              · rcases Nat.lt_trichotomy y.toNat z.toNat with h2 | h2 | h2
                · simp [h2] at hbc
                · have : ¬ x.toNat < z.toNat := by omega
                  have h3 : z.toNat < x.toNat := by omega
                  simp [this, h3]
                · have : ¬ x.toNat < z.toNat := by omega
                  have h3 : z.toNat < x.toNat := by omega
                  simp [this, h3]

theorem strLt_irrefl (s : String) : strLt s s = false :=
  charListLt_irrefl s.data

theorem strLt_asymm {a b : String} (h : strLt a b = true) : strLt b a = false :=
  charListLt_asymm h

theorem strLt_neg_trans {a b c : String} (hab : strLt a b = false)
    (hbc : strLt b c = false) : strLt a c = false :=
  charListLt_neg_trans hab hbc

theorem listStrLt_irrefl (l : List String) : listStrLt l l = false := by
  induction l with
  | nil => rfl
  | cons a as ih => simp [listStrLt, strLt_irrefl, ih]

theorem listStrLt_asymm {a b : List String} (h : listStrLt a b = true) :
    listStrLt b a = false := by
  induction a generalizing b with
  | nil =>
      cases b with
      | nil => simp [listStrLt] at h
      | cons x xs => rfl
  | cons x xs ih =>
      cases b with
      | nil => simp [listStrLt] at h
      | cons y ys =>
          simp only [listStrLt] at h ⊢
          by_cases h1 : strLt x y = true
          · simp [h1, strLt_asymm h1]
          · rw [Bool.not_eq_true] at h1
            by_cases h2 : strLt y x = true
            · simp [h1, h2] at h
            · rw [Bool.not_eq_true] at h2
              simp only [h1, h2, Bool.false_eq_true, if_false] at h ⊢
              exact ih h

theorem listStrLt_neg_trans {a b c : List String} (hab : listStrLt a b = false)
    (hbc : listStrLt b c = false) : listStrLt a c = false := by
  induction a generalizing b c with
  | nil =>
      cases b with
      | nil =>
          cases c with
          | nil => rfl
          | cons z zs => simp [listStrLt] at hbc
      | cons y ys => simp [listStrLt] at hab
  | cons x xs ih =>
      cases b with
      | nil =>
          cases c with
          | nil => rfl
          | cons z zs => simp [listStrLt] at hbc
      | cons y ys =>
          cases c with
          | nil => rfl
          | cons z zs =>
              simp only [listStrLt] at hab hbc ⊢
              by_cases h1 : strLt x y = true
              · simp [h1] at hab
              · rw [Bool.not_eq_true] at h1
                by_cases h2 : strLt y z = true
                · simp [h2] at hbc
                · rw [Bool.not_eq_true] at h2
                  have h3 : strLt x z = false := strLt_neg_trans h1 h2
                  simp only [h1, h2, h3, Bool.false_eq_true, if_false] at hab hbc ⊢
                  by_cases h4 : strLt y x = true
                  · have h6 : strLt z x = true := by
                      by_contra hzx
                      rw [Bool.not_eq_true] at hzx
                      have := strLt_neg_trans h2 hzx
                      rw [h4] at this
                      simp at this
                    simp [h6]
                  · rw [Bool.not_eq_true] at h4
                    by_cases h5 : strLt z y = true
                    · have h6 : strLt z x = true := by
                        by_contra hzx
                        rw [Bool.not_eq_true] at hzx
                        have := strLt_neg_trans hzx h1
                        rw [h5] at this
                        simp at this
                      simp [h6]
                    · rw [Bool.not_eq_true] at h5
                      have h6 : strLt z x = false := strLt_neg_trans h5 h4
                      simp only [h4, h5, h6, Bool.false_eq_true, if_false] at hab hbc ⊢
                      exact ih hab hbc

theorem entryLt_irrefl (e : Entry) : entryLt e e = false := by
  simp [entryLt, strLt_irrefl, listStrLt_irrefl]

theorem entryLt_asymm {a b : Entry} (h : entryLt a b = true) : entryLt b a = false := by
  simp only [entryLt] at h ⊢
  rcases lt_trichotomy a.cost b.cost with h1 | h1 | h1
  · simp [h1, not_lt_of_lt h1, lt_irrefl]
  · simp only [h1, lt_irrefl, if_false] at h ⊢
    by_cases h2 : strLt a.node b.node = true
    · simp [h2, strLt_asymm h2]
    · rw [Bool.not_eq_true] at h2
      by_cases h3 : strLt b.node a.node = true
      · simp [h2, h3] at h
      · rw [Bool.not_eq_true] at h3
        simp only [h2, h3, Bool.false_eq_true, if_false] at h ⊢
        exact listStrLt_asymm h
  · simp [not_lt_of_lt h1, h1] at h

theorem entryLt_neg_trans {a b c : Entry} (hab : entryLt a b = false)
    (hbc : entryLt b c = false) : entryLt a c = false := by
  simp only [entryLt] at hab hbc ⊢
  rcases lt_trichotomy a.cost b.cost with h1 | h1 | h1
  · simp [h1] at hab
  · rcases lt_trichotomy b.cost c.cost with h2 | h2 | h2
    · simp [h2] at hbc
    · have hac : a.cost = c.cost := h1.trans h2
      simp only [h1, h2, hac, lt_irrefl, if_false] at hab hbc ⊢
      by_cases h3 : strLt a.node b.node = true
      · simp [h3] at hab
      · rw [Bool.not_eq_true] at h3
        by_cases h4 : strLt b.node c.node = true
        · simp [h4] at hbc
        · rw [Bool.not_eq_true] at h4
          have h5 : strLt a.node c.node = false := strLt_neg_trans h3 h4
          simp only [h3, h4, h5, Bool.false_eq_true, if_false] at hab hbc ⊢
          by_cases h6 : strLt b.node a.node = true
          · have h9 : strLt c.node a.node = true := by
              by_contra hca
              rw [Bool.not_eq_true] at hca
              have := strLt_neg_trans h4 hca
              rw [h6] at this
              simp at this
            simp [h9]
          · rw [Bool.not_eq_true] at h6
            by_cases h7 : strLt c.node b.node = true
            · have h9 : strLt c.node a.node = true := by
                by_contra hca
                rw [Bool.not_eq_true] at hca
                have := strLt_neg_trans hca h3
                rw [h7] at this
                simp at this
              simp [h9]
            · rw [Bool.not_eq_true] at h7
              have h8 : strLt c.node a.node = false := strLt_neg_trans h7 h6
              simp only [h6, h7, h8, Bool.false_eq_true, if_false] at hab hbc ⊢
              exact listStrLt_neg_trans hab hbc
    · have : ¬ a.cost < c.cost := by omega
      have h3 : c.cost < a.cost := by omega
      simp [this, h3]
  · rcases lt_trichotomy b.cost c.cost with h2 | h2 | h2
    · simp [h2] at hbc
    all_goals
      have : ¬ a.cost < c.cost := by omega
      have h3 : c.cost < a.cost := by omega
      simp [this, h3]

theorem entryLt_false_cost_le {a b : Entry} (h : entryLt a b = false) :
    b.cost ≤ a.cost := by
  simp only [entryLt] at h
  by_cases h1 : a.cost < b.cost
  · simp [h1] at h
  · omega

/-! ### popMin lemmas -/

theorem popMin_nil : popMin [] = none := rfl

theorem popMin_isSome {q : List Entry} (h : q ≠ []) : (popMin q).isSome := by
  cases q with
  | nil => exact absurd rfl h
  | cons e es =>
      simp only [popMin]
      cases popMin es with
      | none => rfl
      | some p =>
          obtain ⟨m, rest⟩ := p
          by_cases hlt : entryLt m e = true <;> simp [hlt]

theorem popMin_eq_none {q : List Entry} (h : popMin q = none) : q = [] := by
  cases q with
  | nil => rfl
  | cons e es =>
      have := @popMin_isSome (e :: es) (by simp)
      rw [h] at this
      simp at this

theorem popMin_mem {q : List Entry} {e : Entry} {rest : List Entry}
    (h : popMin q = some (e, rest)) : e ∈ q := by
  induction q generalizing e rest with
  | nil => simp [popMin] at h
  | cons a as ih =>
      simp only [popMin] at h
      cases hpm : popMin as with
      | none =>
          rw [hpm] at h
          simp at h
          simp [h.1]
      | some p =>
          obtain ⟨m, r⟩ := p
          rw [hpm] at h
          by_cases hlt : entryLt m a = true
          · simp only [hlt, if_true, Option.some.injEq, Prod.mk.injEq] at h
            exact List.mem_cons_of_mem _ (h.1 ▸ ih hpm)
          · rw [Bool.not_eq_true] at hlt
            simp only [hlt, Bool.false_eq_true, if_false, Option.some.injEq,
              Prod.mk.injEq] at h
            simp [h.1]

theorem popMin_length {q : List Entry} {e : Entry} {rest : List Entry}
    (h : popMin q = some (e, rest)) : q.length = rest.length + 1 := by
  induction q generalizing e rest with
  | nil => simp [popMin] at h
  | cons a as ih =>
      simp only [popMin] at h
      cases hpm : popMin as with
      | none =>
          rw [hpm] at h
          simp only [Option.some.injEq, Prod.mk.injEq] at h
          have := popMin_eq_none hpm
          subst this
          simp [← h.2]
      | some p =>
          obtain ⟨m, r⟩ := p
          rw [hpm] at h
          by_cases hlt : entryLt m a = true
          · simp only [hlt, if_true, Option.some.injEq, Prod.mk.injEq] at h
            have := ih hpm
            rw [← h.2]
            simp [this]
          · rw [Bool.not_eq_true] at hlt
            simp only [hlt, Bool.false_eq_true, if_false, Option.some.injEq,
              Prod.mk.injEq] at h
            rw [← h.2]
            simp

theorem popMin_mem_cases {q : List Entry} {e x : Entry} {rest : List Entry}
    (h : popMin q = some (e, rest)) (hx : x ∈ q) : x = e ∨ x ∈ rest := by
  induction q generalizing e rest with
  | nil => simp [popMin] at h
  | cons a as ih =>
      simp only [popMin] at h
      cases hpm : popMin as with
      | none =>
          rw [hpm] at h
          simp only [Option.some.injEq, Prod.mk.injEq] at h
          have := popMin_eq_none hpm
          subst this
          simp at hx
          subst hx
          exact Or.inl h.1
      | some p =>
          obtain ⟨m, r⟩ := p
          rw [hpm] at h
          by_cases hlt : entryLt m a = true
          · simp only [hlt, if_true, Option.some.injEq, Prod.mk.injEq] at h
            obtain ⟨he, hr⟩ := h
            subst he
            subst hr
            rcases List.mem_cons.mp hx with hxa | hxas
            · exact Or.inr (List.mem_cons.mpr (Or.inl hxa))
            · rcases ih hpm hxas with h1 | h1
              · exact Or.inl h1
              · exact Or.inr (List.mem_cons.mpr (Or.inr h1))
          · rw [Bool.not_eq_true] at hlt
            simp only [hlt, Bool.false_eq_true, if_false, Option.some.injEq,
              Prod.mk.injEq] at h
            obtain ⟨he, hr⟩ := h
            subst he
            subst hr
            rcases List.mem_cons.mp hx with hxa | hxas
            · exact Or.inl hxa
            · exact Or.inr hxas

theorem popMin_rest_subset {q : List Entry} {e x : Entry} {rest : List Entry}
    (h : popMin q = some (e, rest)) (hx : x ∈ rest) : x ∈ q := by
  induction q generalizing e rest with
  | nil => simp [popMin] at h
  | cons a as ih =>
      simp only [popMin] at h
      cases hpm : popMin as with
      | none =>
          rw [hpm] at h
          simp only [Option.some.injEq, Prod.mk.injEq] at h
          rw [← h.2] at hx
          simp at hx
      | some p =>
          obtain ⟨m, r⟩ := p
          rw [hpm] at h
          by_cases hlt : entryLt m a = true
          · simp only [hlt, if_true, Option.some.injEq, Prod.mk.injEq] at h
            rw [← h.2] at hx
            rcases List.mem_cons.mp hx with hxa | hxr
            · simp [hxa]
            · exact List.mem_cons_of_mem _ (ih hpm hxr)
          · rw [Bool.not_eq_true] at hlt
            simp only [hlt, Bool.false_eq_true, if_false, Option.some.injEq,
              Prod.mk.injEq] at h
            rw [← h.2] at hx
            exact List.mem_cons_of_mem _ hx

theorem popMin_least {q : List Entry} {e : Entry} {rest : List Entry}
    (h : popMin q = some (e, rest)) : ∀ x ∈ q, entryLt x e = false := by
  induction q generalizing e rest with
  | nil => simp [popMin] at h
  | cons a as ih =>
      simp only [popMin] at h
      cases hpm : popMin as with
      | none =>
          rw [hpm] at h
          simp only [Option.some.injEq, Prod.mk.injEq] at h
          have := popMin_eq_none hpm
          subst this
          intro x hx
          simp at hx
          subst hx
          rw [← h.1]
          exact entryLt_irrefl x
      | some p =>
          obtain ⟨m, r⟩ := p
          rw [hpm] at h
          by_cases hlt : entryLt m a = true
          · simp only [hlt, if_true, Option.some.injEq, Prod.mk.injEq] at h
            obtain ⟨he, _⟩ := h
            subst he
            intro x hx
            rcases List.mem_cons.mp hx with hxa | hxas
            · subst hxa
              exact entryLt_asymm hlt
            · exact ih hpm x hxas
          · rw [Bool.not_eq_true] at hlt
            simp only [hlt, Bool.false_eq_true, if_false, Option.some.injEq,
              Prod.mk.injEq] at h
            obtain ⟨he, _⟩ := h
            subst he
            intro x hx
            rcases List.mem_cons.mp hx with hxa | hxas
            · subst hxa
              exact entryLt_irrefl x
            · exact entryLt_neg_trans (ih hpm x hxas) hlt

theorem popMin_cost_le {q : List Entry} {e : Entry} {rest : List Entry}
    (h : popMin q = some (e, rest)) : ∀ x ∈ q, e.cost ≤ x.cost :=
  fun x hx => entryLt_false_cost_le (popMin_least h x hx)


/-! ### Edges, chains and walks -/

/-- The attribute dict stored for the (directed) adjacency entry `(u, v)`. -/
def edgeAttrs (g : Graph) (u v : Node) : Option Attrs :=
  (adjOf g u).bind fun al => lookupA al v

/-- The consecutive pair `(u, v)` is joined by an edge: `v` is a key of the
adjacency dict of `u`. -/
def hasEdgeB (g : Graph) (u v : Node) : Bool :=
  (edgeAttrs g u v).isSome

/-- Every consecutive pair of the list is joined by an edge. -/
def chainB (g : Graph) : List Node → Bool
  | [] => true
  | [_] => true
  | a :: b :: rest => hasEdgeB g a b && chainB g (b :: rest)

/-- The weight the search charges for traversing edge `(u, v)` under `key`:
`attributes.get(key, 1)` of the attribute dict stored at `v` in the adjacency
dict of `u`; `none` when the edge does not exist. -/
def edgeW (g : Graph) (key : String) (u v : Node) : Option Int :=
  (edgeAttrs g u v).map fun attrs => getAttr attrs key

/-- Total weight of a node list viewed as a walk: sum of `edgeW` over the
consecutive pairs; `none` if a consecutive pair is not an edge or the list is
empty. -/
def walkCost (g : Graph) (key : String) : List Node → Option Int
  | [] => none
  | [_] => some 0
  | a :: b :: rest =>
      match edgeW g key a b, walkCost g key (b :: rest) with
      | some w, some c => some (w + c)
      | _, _ => none

/-- `l` is a walk from `s` to `z` of total weight `d` (under `key`). -/
def IsWalkFrom (g : Graph) (key : String) (s z : Node) (l : List Node) (d : Int) :
    Prop :=
  l.head? = some s ∧ l.getLast? = some z ∧ walkCost g key l = some d

/-- Relational form of walks, growing at the far end. -/
inductive WalkTo (g : Graph) (key : String) (s : Node) : Node → Int → Prop where
  | base : WalkTo g key s s 0
  | step {v u : Node} {d w : Int} : WalkTo g key s v d → edgeW g key v u = some w →
      WalkTo g key s u (d + w)

/-- All adjacency entries carry a non-negative value for `key`
(with the default 1 for a missing attribute). -/
def NonnegW (g : Graph) (key : String) : Prop :=
  ∀ p ∈ g, ∀ nb ∈ p.2, 0 ≤ getAttr nb.2 key

theorem edgeAttrs_elim {g : Graph} {u v : Node} {attrs : Attrs}
    (h : edgeAttrs g u v = some attrs) :
    ∃ al, adjOf g u = some al ∧ (v, attrs) ∈ al ∧ lookupA al v = some attrs := by
  unfold edgeAttrs at h
  cases hadj : adjOf g u with
  | none => rw [hadj] at h; simp at h
  | some al =>
      rw [hadj] at h
      simp only [Option.some_bind] at h
      exact ⟨al, rfl, lookupA_mem h, h⟩

theorem edgeW_elim {g : Graph} {key : String} {u v : Node} {w : Int}
    (h : edgeW g key u v = some w) :
    ∃ al attrs, adjOf g u = some al ∧ (v, attrs) ∈ al ∧
      lookupA al v = some attrs ∧ w = getAttr attrs key := by
  unfold edgeW at h
  cases ha : edgeAttrs g u v with
  | none => rw [ha] at h; simp at h
  | some attrs =>
      rw [ha] at h
      simp only [Option.map_some', Option.some.injEq] at h
      obtain ⟨al, hadj, hmem, hl⟩ := edgeAttrs_elim ha
      exact ⟨al, attrs, hadj, hmem, hl, h.symm⟩

theorem edgeW_nonneg {g : Graph} {key : String} {u v : Node} {w : Int}
    (hnn : NonnegW g key) (h : edgeW g key u v = some w) : 0 ≤ w := by
  obtain ⟨al, attrs, hadj, hmem, _, hw⟩ := edgeW_elim h
  have hg : (u, al) ∈ g := lookupA_mem hadj
  rw [hw]
  exact hnn (u, al) hg (v, attrs) hmem

theorem hasEdgeB_of_edgeW {g : Graph} {key : String} {u v : Node} {w : Int}
    (h : edgeW g key u v = some w) : hasEdgeB g u v = true := by
  unfold edgeW at h
  unfold hasEdgeB
  cases ha : edgeAttrs g u v with
  | none => rw [ha] at h; simp at h
  | some attrs => simp

theorem edgeW_of_hasEdgeB {g : Graph} {key : String} {u v : Node}
    (h : hasEdgeB g u v = true) : ∃ w, edgeW g key u v = some w := by
  unfold hasEdgeB at h
  unfold edgeW
  cases ha : edgeAttrs g u v with
  | none => rw [ha] at h; simp at h
  | some attrs => exact ⟨getAttr attrs key, by simp⟩

theorem edgeW_intro {g : Graph} {u v : Node} {al : AdjList} {attrs : Attrs}
    (key : String) (hadj : adjOf g u = some al) (hl : lookupA al v = some attrs) :
    edgeW g key u v = some (getAttr attrs key) := by
  unfold edgeW edgeAttrs
  rw [hadj]
  simp [hl]

theorem walkCost_single (g : Graph) (key : String) (x : Node) :
    walkCost g key [x] = some 0 := rfl

theorem walkCost_isSome_of_chain {g : Graph} {key : String} {l : List Node}
    (hc : chainB g l = true) (hne : l ≠ []) : ∃ d, walkCost g key l = some d := by
  induction l with
  | nil => exact absurd rfl hne
  | cons a rest ih =>
      cases rest with
      | nil => exact ⟨0, rfl⟩
      | cons b rest2 =>
          simp only [chainB, Bool.and_eq_true] at hc
          obtain ⟨w, hw⟩ := @edgeW_of_hasEdgeB g key a b hc.1
          obtain ⟨d, hd⟩ := ih hc.2 (by simp)
          exact ⟨w + d, by simp [walkCost, hw, hd]⟩

theorem chainB_of_walkCost {g : Graph} {key : String} {l : List Node} {d : Int}
    (h : walkCost g key l = some d) : chainB g l = true := by
  induction l generalizing d with
  | nil => simp [walkCost] at h
  | cons a rest ih =>
      cases rest with
      | nil => rfl
      | cons b rest2 =>
          simp only [walkCost] at h
          cases hw : edgeW g key a b with
          | none => rw [hw] at h; simp at h
          | some w =>
              rw [hw] at h
              cases hc : walkCost g key (b :: rest2) with
              | none => rw [hc] at h; simp at h
              | some c =>
                  simp only [chainB, Bool.and_eq_true]
                  exact ⟨hasEdgeB_of_edgeW hw, ih hc⟩

theorem walkCost_nonneg {g : Graph} {key : String} {l : List Node} {d : Int}
    (hnn : NonnegW g key) (h : walkCost g key l = some d) : 0 ≤ d := by
  induction l generalizing d with
  | nil => simp [walkCost] at h
  | cons a rest ih =>
      cases rest with
      | nil =>
          simp only [walkCost, Option.some.injEq] at h
          omega
      | cons b rest2 =>
          simp only [walkCost] at h
          cases hw : edgeW g key a b with
          | none => rw [hw] at h; simp at h
          | some w =>
              rw [hw] at h
              cases hc : walkCost g key (b :: rest2) with
              | none => rw [hc] at h; simp at h
              | some c =>
                  rw [hc] at h
                  simp only [Option.some.injEq] at h
                  have h1 := edgeW_nonneg hnn hw
                  have h2 := ih hc
                  omega

theorem walkCost_snoc_elim {g : Graph} {key : String} {l : List Node} {z : Node}
    {d : Int} (h : walkCost g key (l ++ [z]) = some d) (hne : l ≠ []) :
    ∃ v dp w, l.getLast? = some v ∧ walkCost g key l = some dp ∧
      edgeW g key v z = some w ∧ d = dp + w := by
  induction l generalizing d with
  | nil => exact absurd rfl hne
  | cons a rest ih =>
      cases rest with
      | nil =>
          simp only [List.cons_append, List.nil_append, walkCost] at h
          cases hw : edgeW g key a z with
          | none => rw [hw] at h; simp at h
          | some w =>
              rw [hw] at h
              simp only [Option.some.injEq] at h
              exact ⟨a, 0, w, rfl, rfl, hw, by omega⟩
      | cons b rest2 =>
          simp only [List.cons_append] at h
          simp only [walkCost] at h
          cases hw : edgeW g key a b with
          | none => rw [hw] at h; simp at h
          | some w =>
              rw [hw] at h
              cases hc : walkCost g key (b :: (rest2 ++ [z])) with
              | none => rw [hc] at h; simp at h
              | some c =>
                  rw [hc] at h
                  simp only [Option.some.injEq] at h
                  have hc2 : walkCost g key ((b :: rest2) ++ [z]) = some c := by
                    simpa using hc
                  obtain ⟨v, dp, w2, hlast, hcost, hedge, hsum⟩ := ih hc2 (by simp)
                  refine ⟨v, w + dp, w2, ?_, ?_, hedge, by omega⟩
                  · rw [List.getLast?_cons_cons]
                    exact hlast
                  · simp [walkCost, hw, hcost]

theorem walkCost_snoc_intro {g : Graph} {key : String} {l : List Node} {v z : Node}
    {dp w : Int} (hlast : l.getLast? = some v) (hcost : walkCost g key l = some dp)
    (hedge : edgeW g key v z = some w) :
    walkCost g key (l ++ [z]) = some (dp + w) := by
  induction l generalizing dp with
  | nil => simp at hlast
  | cons a rest ih =>
      cases rest with
      | nil =>
          simp only [List.getLast?_singleton, Option.some.injEq] at hlast
          subst hlast
          simp only [walkCost, Option.some.injEq] at hcost
          simp only [List.cons_append, List.nil_append, walkCost, hedge]
          rw [← hcost]
          simp [Int.add_comm]
      | cons b rest2 =>
          rw [List.getLast?_cons_cons] at hlast
          simp only [walkCost] at hcost
          cases hw : edgeW g key a b with
          | none => rw [hw] at hcost; simp at hcost
          | some w1 =>
              rw [hw] at hcost
              cases hc : walkCost g key (b :: rest2) with
              | none => rw [hc] at hcost; simp at hcost
              | some c =>
                  rw [hc] at hcost
                  simp only [Option.some.injEq] at hcost
                  have hstep := ih hlast hc
                  simp only [List.cons_append] at hstep ⊢
                  simp only [walkCost, hw, hstep]
                  simp only [Option.some.injEq]
                  omega

theorem walkTo_of_walk {g : Graph} {key : String} {s z : Node} {l : List Node}
    {d : Int} (h : IsWalkFrom g key s z l d) : WalkTo g key s z d := by
  obtain ⟨hhead, hlast, hcost⟩ := h
  induction l using List.reverseRecOn generalizing z d with
  | nil => simp at hhead
  | append_singleton l a ih =>
      rw [List.getLast?_append_cons, List.getLast?_singleton] at hlast
      simp only [Option.some.injEq] at hlast
      subst hlast
      cases hl : l with
      | nil =>
          subst hl
          simp only [List.nil_append, List.head?_cons, Option.some.injEq] at hhead
          subst hhead
          simp only [List.nil_append] at hcost
          rw [walkCost_single] at hcost
          simp only [Option.some.injEq] at hcost
          subst hcost
          exact WalkTo.base
      | cons b rest =>
          have hlne : l ≠ [] := by simp [hl]
          obtain ⟨v, dp, w, hvlast, hvcost, hedge, hsum⟩ :=
            walkCost_snoc_elim hcost hlne
          have hhead2 : l.head? = some s := by
            rw [hl] at hhead ⊢
            simpa using hhead
          subst hsum
          exact WalkTo.step (ih hhead2 hvlast hvcost) hedge

theorem walk_of_walkTo {g : Graph} {key : String} {s z : Node} {d : Int}
    (h : WalkTo g key s z d) : ∃ l, IsWalkFrom g key s z l d := by
  induction h with
  | base => exact ⟨[s], rfl, rfl, rfl⟩
  | step hw hedge ih =>
      obtain ⟨l, hhead, hlast, hcost⟩ := ih
      rename_i v u dv wv
      refine ⟨l ++ [u], ?_, ?_, ?_⟩
      · cases l with
        | nil => simp at hhead
        | cons x xs => simpa using hhead
      · rw [List.getLast?_append_cons, List.getLast?_singleton]
      · exact walkCost_snoc_intro hlast hcost hedge

theorem walkTo_nonneg {g : Graph} {key : String} {s z : Node} {d : Int}
    (hnn : NonnegW g key) (h : WalkTo g key s z d) : 0 ≤ d := by
  induction h with
  | base => omega
  | step hw hedge ih =>
      have := edgeW_nonneg hnn hedge
      omega


/-! ### Relaxation-step specification -/

theorem relaxAll_cons_vis {visited : List Node} {cost : Int} {npath : List Node}
    {key : String} {nbr : Node} {attrs : Attrs} {rest : AdjList}
    {m : List (Node × Int)} {q : List Entry} (hv : nbr ∈ visited) :
    relaxAll visited cost npath key ((nbr, attrs) :: rest) m q =
      relaxAll visited cost npath key rest m q := by
  simp only [relaxAll, if_pos hv]

theorem relaxAll_cons_push {visited : List Node} {cost : Int} {npath : List Node}
    {key : String} {nbr : Node} {attrs : Attrs} {rest : AdjList}
    {m : List (Node × Int)} {q : List Entry} (hv : nbr ∉ visited)
    (hp : pushTest m nbr (cost + getAttr attrs key) = true) :
    relaxAll visited cost npath key ((nbr, attrs) :: rest) m q =
      relaxAll visited cost npath key rest
        (updateAssoc m nbr (cost + getAttr attrs key))
        (q ++ [⟨cost + getAttr attrs key, nbr, npath⟩]) := by
  simp only [relaxAll, if_neg hv, hp, if_true]

theorem relaxAll_cons_skip {visited : List Node} {cost : Int} {npath : List Node}
    {key : String} {nbr : Node} {attrs : Attrs} {rest : AdjList}
    {m : List (Node × Int)} {q : List Entry} (hv : nbr ∉ visited)
    (hp : pushTest m nbr (cost + getAttr attrs key) = false) :
    relaxAll visited cost npath key ((nbr, attrs) :: rest) m q =
      relaxAll visited cost npath key rest m q := by
  simp only [relaxAll, if_neg hv, hp, Bool.false_eq_true, if_false]

theorem pushTest_false_le {m : List (Node × Int)} {nbr : Node} {nc : Int}
    (hp : pushTest m nbr nc = false) : ∃ old, lookupA m nbr = some old ∧ old ≤ nc := by
  unfold pushTest at hp
  cases hl : lookupA m nbr with
  | none => rw [hl] at hp; simp at hp
  | some old =>
      rw [hl] at hp
      simp only [decide_eq_false_iff_not, not_lt] at hp
      exact ⟨old, rfl, hp⟩

/-- The queue after relaxation is the old queue plus fresh pushes, one per
not-yet-visited adjacency entry that passed the cost test. -/
theorem relaxAll_queue (visited : List Node) (cost : Int) (npath : List Node)
    (key : String) (al : AdjList) :
    ∀ (m : List (Node × Int)) (q : List Entry),
    ∃ news, (relaxAll visited cost npath key al m q).2 = q ++ news ∧
      news.length ≤ al.length ∧
      ∀ en ∈ news, en.path = npath ∧ en.node ∉ visited ∧
        ∃ attrs, (en.node, attrs) ∈ al ∧ en.cost = cost + getAttr attrs key := by
  induction al with
  | nil =>
      intro m q
      exact ⟨[], by simp [relaxAll], by simp, by simp⟩
  | cons p rest ih =>
      obtain ⟨nbr, attrs⟩ := p
      intro m q
      by_cases hv : nbr ∈ visited
      · obtain ⟨news, h1, h2, h3⟩ := ih m q
        rw [relaxAll_cons_vis hv]
        refine ⟨news, h1, Nat.le_succ_of_le h2, ?_⟩
        intro en hen
        obtain ⟨hp, hnv, attrs2, hmem, hcost⟩ := h3 en hen
        exact ⟨hp, hnv, attrs2, List.mem_cons_of_mem _ hmem, hcost⟩
      · by_cases hpush : pushTest m nbr (cost + getAttr attrs key) = true
        · obtain ⟨news, h1, h2, h3⟩ :=
            ih (updateAssoc m nbr (cost + getAttr attrs key))
              (q ++ [⟨cost + getAttr attrs key, nbr, npath⟩])
          rw [relaxAll_cons_push hv hpush]
          refine ⟨⟨cost + getAttr attrs key, nbr, npath⟩ :: news, ?_, ?_, ?_⟩
          · rw [h1]
            simp
          · simpa using Nat.succ_le_succ h2
          · intro en hen
            rcases List.mem_cons.mp hen with hh | hh
            · subst hh
              exact ⟨rfl, hv, attrs, List.mem_cons_self _ _, rfl⟩
            · obtain ⟨hp, hnv, attrs2, hmem, hcost⟩ := h3 en hh
              exact ⟨hp, hnv, attrs2, List.mem_cons_of_mem _ hmem, hcost⟩
        · rw [Bool.not_eq_true] at hpush
          obtain ⟨news, h1, h2, h3⟩ := ih m q
          rw [relaxAll_cons_skip hv hpush]
          refine ⟨news, h1, Nat.le_succ_of_le h2, ?_⟩
          intro en hen
          obtain ⟨hp, hnv, attrs2, hmem, hcost⟩ := h3 en hen
          exact ⟨hp, hnv, attrs2, List.mem_cons_of_mem _ hmem, hcost⟩

/-- `min_costs` values only decrease during relaxation, and stay defined. -/
theorem relaxAll_m_le (visited : List Node) (cost : Int) (npath : List Node)
    (key : String) (al : AdjList) :
    ∀ (m : List (Node × Int)) (q : List Entry) (u : Node) (vold : Int),
    lookupA m u = some vold →
    ∃ vnew, lookupA (relaxAll visited cost npath key al m q).1 u = some vnew ∧
      vnew ≤ vold := by
  induction al with
  | nil =>
      intro m q u vold hl
      exact ⟨vold, by simpa [relaxAll] using hl, le_refl vold⟩
  | cons p rest ih =>
      obtain ⟨nbr, attrs⟩ := p
      intro m q u vold hl
      by_cases hv : nbr ∈ visited
      · rw [relaxAll_cons_vis hv]
        exact ih m q u vold hl
      · by_cases hpush : pushTest m nbr (cost + getAttr attrs key) = true
        · rw [relaxAll_cons_push hv hpush]
          by_cases hu : nbr = u
          · subst hu
            have hup := lookupA_update_self m nbr (cost + getAttr attrs key)
            obtain ⟨vnew, h1, h2⟩ :=
              ih (updateAssoc m nbr (cost + getAttr attrs key))
                (q ++ [⟨cost + getAttr attrs key, nbr, npath⟩]) nbr
                (cost + getAttr attrs key) hup
            refine ⟨vnew, h1, le_trans h2 ?_⟩
            unfold pushTest at hpush
            rw [hl] at hpush
            simp only [decide_eq_true_eq] at hpush
            omega
          · have hup := lookupA_update_ne m (cost + getAttr attrs key)
              (fun h => hu h.symm)
            rw [hl] at hup
            obtain ⟨vnew, h1, h2⟩ :=
              ih (updateAssoc m nbr (cost + getAttr attrs key))
                (q ++ [⟨cost + getAttr attrs key, nbr, npath⟩]) u vold hup
            exact ⟨vnew, h1, h2⟩
        · rw [Bool.not_eq_true] at hpush
          rw [relaxAll_cons_skip hv hpush]
          exact ih m q u vold hl

/-- Relaxation never touches the `min_costs` entry of a visited node. -/
theorem relaxAll_m_visited (visited : List Node) (cost : Int) (npath : List Node)
    (key : String) (al : AdjList) :
    ∀ (m : List (Node × Int)) (q : List Entry) (u : Node), u ∈ visited →
    lookupA (relaxAll visited cost npath key al m q).1 u = lookupA m u := by
  induction al with
  | nil =>
      intro m q u _
      simp [relaxAll]
  | cons p rest ih =>
      obtain ⟨nbr, attrs⟩ := p
      intro m q u hu
      by_cases hv : nbr ∈ visited
      · rw [relaxAll_cons_vis hv]
        exact ih m q u hu
      · by_cases hpush : pushTest m nbr (cost + getAttr attrs key) = true
        · rw [relaxAll_cons_push hv hpush]
          have hne : nbr ≠ u := fun h => hv (h ▸ hu)
          rw [ih _ _ u hu, lookupA_update_ne m _ (fun h => hne h.symm)]
        · rw [Bool.not_eq_true] at hpush
          rw [relaxAll_cons_skip hv hpush]
          exact ih m q u hu

/-- Preservation of "every queue entry is at least its node's recorded
minimum cost" through relaxation. -/
theorem relaxAll_qge (visited : List Node) (cost : Int) (npath : List Node)
    (key : String) (al : AdjList) :
    ∀ (m : List (Node × Int)) (q : List Entry),
    (∀ en ∈ q, ∃ v, lookupA m en.node = some v ∧ v ≤ en.cost) →
    ∀ en ∈ (relaxAll visited cost npath key al m q).2,
      ∃ v, lookupA (relaxAll visited cost npath key al m q).1 en.node = some v ∧
        v ≤ en.cost := by
  induction al with
  | nil =>
      intro m q hpre en hen
      simp only [relaxAll] at hen ⊢
      exact hpre en hen
  | cons p rest ih =>
      obtain ⟨nbr, attrs⟩ := p
      intro m q hpre en hen
      by_cases hv : nbr ∈ visited
      · rw [relaxAll_cons_vis hv] at hen ⊢
        exact ih m q hpre en hen
      · by_cases hpush : pushTest m nbr (cost + getAttr attrs key) = true
        · rw [relaxAll_cons_push hv hpush] at hen ⊢
          refine ih _ _ ?_ en hen
          intro en2 hen2
          rcases List.mem_append.mp hen2 with hh | hh
          · obtain ⟨v, h1, h2⟩ := hpre en2 hh
            by_cases hu : nbr = en2.node
            · subst hu
              refine ⟨cost + getAttr attrs key, lookupA_update_self _ _ _, ?_⟩
              unfold pushTest at hpush
              rw [h1] at hpush
              simp only [decide_eq_true_eq] at hpush
              omega
            · exact ⟨v, by rw [lookupA_update_ne m _ (fun h => hu h.symm)]; exact h1, h2⟩
          · simp only [List.mem_singleton] at hh
            subst hh
            exact ⟨cost + getAttr attrs key, lookupA_update_self _ _ _, le_refl _⟩
        · rw [Bool.not_eq_true] at hpush
          rw [relaxAll_cons_skip hv hpush] at hen ⊢
          exact ih m q hpre en hen

/-- Preservation of "every unvisited node with a recorded minumum cost has a
queue entry at exactly that cost" through relaxation. -/
theorem relaxAll_qmin (visited : List Node) (cost : Int) (npath : List Node)
    (key : String) (al : AdjList) :
    ∀ (m : List (Node × Int)) (q : List Entry),
    (∀ u, u ∉ visited → ∀ v, lookupA m u = some v → ∃ pp, Entry.mk v u pp ∈ q) →
    ∀ u, u ∉ visited → ∀ v,
      lookupA (relaxAll visited cost npath key al m q).1 u = some v →
      ∃ pp, Entry.mk v u pp ∈ (relaxAll visited cost npath key al m q).2 := by
  induction al with
  | nil =>
      intro m q hpre u hu v hl
      simp only [relaxAll] at hl ⊢
      exact hpre u hu v hl
  | cons p rest ih =>
      obtain ⟨nbr, attrs⟩ := p
      intro m q hpre u hu v hl
      by_cases hv : nbr ∈ visited
      · rw [relaxAll_cons_vis hv] at hl ⊢
        exact ih m q hpre u hu v hl
      · by_cases hpush : pushTest m nbr (cost + getAttr attrs key) = true
        · rw [relaxAll_cons_push hv hpush] at hl ⊢
          refine ih _ _ ?_ u hu v hl
          intro u2 hu2 v2 hl2
          by_cases hun : nbr = u2
          · subst hun
            rw [lookupA_update_self] at hl2
            simp only [Option.some.injEq] at hl2
            subst hl2
            exact ⟨npath, by simp⟩
          · rw [lookupA_update_ne m _ (fun h => hun h.symm)] at hl2
            obtain ⟨pp, hpp⟩ := hpre u2 hu2 v2 hl2
            exact ⟨pp, List.mem_append.mpr (Or.inl hpp)⟩
        · rw [Bool.not_eq_true] at hpush
          rw [relaxAll_cons_skip hv hpush] at hl ⊢
          exact ih m q hpre u hu v hl

/-- After relaxing node `n` at cost `cost`, every unvisited adjacency entry
`(x, attrs)` of `n` has a recorded minimum cost of at most
`cost + getAttr attrs key`. -/
theorem relaxAll_frontier (visited : List Node) (cost : Int) (npath : List Node)
    (key : String) (al : AdjList) :
    ∀ (m : List (Node × Int)) (q : List Entry) (nbr : Node) (attrs : Attrs),
    (nbr, attrs) ∈ al → nbr ∉ visited →
    ∃ v, lookupA (relaxAll visited cost npath key al m q).1 nbr = some v ∧
      v ≤ cost + getAttr attrs key := by
  induction al with
  | nil =>
      intro m q nbr attrs hmem
      simp at hmem
  | cons p rest ih =>
      obtain ⟨nbr0, attrs0⟩ := p
      intro m q nbr attrs hmem hnv
      rcases List.mem_cons.mp hmem with hh | hh
      · have he1 : nbr = nbr0 := congrArg Prod.fst hh
        have he2 : attrs = attrs0 := congrArg Prod.snd hh
        subst he1
        subst he2
        by_cases hv : nbr ∈ visited
        · exact absurd hv hnv
        · by_cases hpush : pushTest m nbr (cost + getAttr attrs key) = true
          · rw [relaxAll_cons_push hv hpush]
            exact relaxAll_m_le visited cost npath key rest _ _ nbr
              (cost + getAttr attrs key) (lookupA_update_self _ _ _)
          · rw [Bool.not_eq_true] at hpush
            rw [relaxAll_cons_skip hv hpush]
            obtain ⟨old, hold, hle⟩ := pushTest_false_le hpush
            obtain ⟨vnew, h1, h2⟩ := relaxAll_m_le visited cost npath key rest m q nbr old hold
            exact ⟨vnew, h1, le_trans h2 hle⟩
      · by_cases hv : nbr0 ∈ visited
        · rw [relaxAll_cons_vis hv]
          exact ih m q nbr attrs hh hnv
        · by_cases hpush : pushTest m nbr0 (cost + getAttr attrs0 key) = true
          · rw [relaxAll_cons_push hv hpush]
            exact ih _ _ nbr attrs hh hnv
          · rw [Bool.not_eq_true] at hpush
            rw [relaxAll_cons_skip hv hpush]
            exact ih m q nbr attrs hh hnv


/-! ### Search invariants -/

/-- Well-formedness that every `networkx` graph enjoys because Python dicts
have unique keys: node keys and, per node, neighbor keys are duplicate-free. -/
def WF (g : Graph) : Prop :=
  (g.map Prod.fst).Nodup ∧ ∀ p ∈ g, (p.2.map Prod.fst).Nodup

/-- Every neighbor name is itself a node key — an invariant `add_edge`
maintains. -/
def Closed (g : Graph) : Prop :=
  ∀ p ∈ g, ∀ nb ∈ p.2, nb.1 ∈ graphNodes g

/-- The per-key symmetry of an undirected `networkx` graph: each adjacency
entry appears in both directions with the same attribute dict. -/
def Symm (g : Graph) : Prop :=
  ∀ p ∈ g, ∀ nb ∈ p.2, edgeAttrs g nb.1 p.1 = some nb.2

/-- Well-formedness of a queue entry `(c, n, p)`: `p ++ [n]` is a duplicate-free
walk from `s` of total weight `c`, and all of `p` is visited. -/
def EntryOK (g : Graph) (key : String) (s : Node) (V : List Node) (en : Entry) :
    Prop :=
  (en.path ++ [en.node]).head? = some s ∧
  (en.path ++ [en.node]).Nodup ∧
  walkCost g key (en.path ++ [en.node]) = some en.cost ∧
  ∀ x ∈ en.path, x ∈ V

/-- `v` is the least total weight of any walk from `s` to `u`. -/
def MinTo (g : Graph) (key : String) (s u : Node) (v : Int) : Prop :=
  WalkTo g key s u v ∧ ∀ d, WalkTo g key s u d → v ≤ d

/-- Core state invariant of the search loop, sufficient for completeness.
`Q`, `V`, `M` are the queue, the visited set and `min_costs`. -/
structure MInv (g : Graph) (key : String) (s e : Node) (Q : List Entry)
    (V : List Node) (M : List (Node × Int)) : Prop where
  start : s ∉ V → V = [] ∧ Q = [⟨0, s, []⟩] ∧ M = [(s, 0)]
  eNotV : e ∉ V
  qge : ∀ en ∈ Q, ∃ v, lookupA M en.node = some v ∧ v ≤ en.cost
  qmin : ∀ u, u ∉ V → ∀ v, lookupA M u = some v → ∃ pp, Entry.mk v u pp ∈ Q
  frontier : ∀ u ∈ V, ∃ al, adjOf g u = some al ∧ ∃ du, lookupA M u = some du ∧
      ∀ nb ∈ al, nb.1 ∉ V →
        ∃ vx, lookupA M nb.1 = some vx ∧ vx ≤ du + getAttr nb.2 key

/-- Full Dijkstra invariant: on top of `MInv`, queue entries carry genuine
walks, visited nodes have settled minimal costs, and no queue entry is
cheaper than a settled cost. -/
structure DInv (g : Graph) (key : String) (s e : Node) (Q : List Entry)
    (V : List Node) (M : List (Node × Int)) : Prop where
  core : MInv g key s e Q V M
  entryOK : ∀ en ∈ Q, EntryOK g key s V en
  vmin : ∀ u ∈ V, ∃ v, lookupA M u = some v ∧ MinTo g key s u v
  minq : ∀ u ∈ V, ∀ v, lookupA M u = some v → ∀ en ∈ Q, v ≤ en.cost

theorem mInv_initial (g : Graph) (key : String) (s e : Node) :
    MInv g key s e [⟨0, s, []⟩] [] [(s, 0)] := by
  refine ⟨fun _ => ⟨rfl, rfl, rfl⟩, by simp, ?_, ?_, by simp⟩
  · intro en hen
    simp only [List.mem_singleton] at hen
    subst hen
    exact ⟨0, by simp [lookupA], le_refl 0⟩
  · intro u hu v hl
    simp only [lookupA] at hl
    by_cases hs : s = u
    · subst hs
      simp at hl
      subst hl
      exact ⟨[], by simp⟩
    · simp [hs] at hl

theorem dInv_initial (g : Graph) (key : String) (s e : Node) :
    DInv g key s e [⟨0, s, []⟩] [] [(s, 0)] := by
  refine ⟨mInv_initial g key s e, ?_, by simp, by simp⟩
  intro en hen
  simp only [List.mem_singleton] at hen
  subst hen
  exact ⟨rfl, by simp, rfl, by simp⟩

/-- When an unvisited node is popped, its popped cost equals its recorded
minimum cost. -/
theorem popped_lookup {g : Graph} {key : String} {s e : Node} {Q : List Entry}
    {V : List Node} {M : List (Node × Int)} {en : Entry} {rest : List Entry}
    (hM : MInv g key s e Q V M) (hpop : popMin Q = some (en, rest))
    (hnv : en.node ∉ V) : lookupA M en.node = some en.cost := by
  obtain ⟨v, hv, hvle⟩ := hM.qge en (popMin_mem hpop)
  obtain ⟨pp, hpp⟩ := hM.qmin en.node hnv v hv
  have hle := popMin_cost_le hpop _ hpp
  simp only at hle
  have : v = en.cost := le_antisymm hvle hle
  rw [hv, this]

/-- Key optimality bound: the cost of the popped minimum entry is a lower
bound on the weight of every walk from `s` to any unvisited node. -/
theorem pop_min_bound {g : Graph} {key : String} {s e : Node} {Q : List Entry}
    {V : List Node} {M : List (Node × Int)} {en : Entry} {rest : List Entry}
    (hnn : NonnegW g key) (hD : DInv g key s e Q V M)
    (hpop : popMin Q = some (en, rest)) :
    ∀ z d, WalkTo g key s z d → z ∉ V → en.cost ≤ d := by
  intro z d hw
  induction hw with
  | base =>
      intro hs
      obtain ⟨_, hQ, _⟩ := hD.core.start hs
      rw [hQ] at hpop
      have := popMin_mem hpop
      simp only [List.mem_singleton] at this
      rw [this]
  | step hwv hedge ih =>
      rename_i v u dv wv
      intro hu
      by_cases hv : v ∈ V
      · obtain ⟨mv, hmv, hmin⟩ := hD.vmin v hv
        have hmvd : mv ≤ dv := hmin.2 dv hwv
        obtain ⟨al, hal, du, hdu, hinner⟩ := hD.core.frontier v hv
        have hdumv : du = mv := by
          rw [hdu] at hmv
          exact (Option.some.injEq ..).mp hmv
        obtain ⟨al2, attrs, hal2, hmem, hlook, hwval⟩ := edgeW_elim hedge
        rw [hal] at hal2
        have hale : al = al2 := by
          simpa using hal2
        subst hale
        obtain ⟨vx, hvx, hvxle⟩ := hinner (u, attrs) hmem hu
        obtain ⟨pp, hpp⟩ := hD.core.qmin u hu vx hvx
        have hc := popMin_cost_le hpop _ hpp
        simp only at hc
        calc en.cost ≤ vx := hc
          _ ≤ du + getAttr attrs key := hvxle
          _ = mv + wv := by rw [hdumv, hwval]
          _ ≤ dv + wv := by omega
      · have h1 := ih hv
        have h2 := edgeW_nonneg hnn hedge
        omega


/-! ### Invariant preservation -/

theorem head?_append_left {α : Type} {l1 l2 : List α} {a : α}
    (h : l1.head? = some a) : (l1 ++ l2).head? = some a := by
  cases l1 with
  | nil => simp at h
  | cons x xs => simpa using h

theorem nodup_snoc {α : Type} {l : List α} {a : α}
    (hnd : l.Nodup) (hna : a ∉ l) : (l ++ [a]).Nodup := by
  simp [List.nodup_append, hnd, hna]

theorem adjOf_mem {g : Graph} {u : Node} {al : AdjList}
    (h : adjOf g u = some al) : (u, al) ∈ g :=
  lookupA_mem h

theorem mem_graphNodes_adjOf {g : Graph} {u : Node} (h : u ∈ graphNodes g) :
    ∃ al, adjOf g u = some al := by
  unfold adjOf
  cases hl : lookupA g u with
  | none => exact absurd (lookupA_eq_none_iff.mp hl) (by simpa [graphNodes] using h)
  | some al => exact ⟨al, rfl⟩

theorem entryOK_mono {g : Graph} {key : String} {s : Node} {V V2 : List Node}
    {en : Entry} (hsub : ∀ x ∈ V, x ∈ V2) (h : EntryOK g key s V en) :
    EntryOK g key s V2 en :=
  ⟨h.1, h.2.1, h.2.2.1, fun x hx => hsub x (h.2.2.2 x hx)⟩

theorem mInv_discard {g : Graph} {key : String} {s e : Node} {Q : List Entry}
    {V : List Node} {M : List (Node × Int)} {en : Entry} {rest : List Entry}
    (hM : MInv g key s e Q V M) (hpop : popMin Q = some (en, rest))
    (hv : en.node ∈ V) : MInv g key s e rest V M := by
  refine ⟨?_, hM.eNotV, ?_, ?_, hM.frontier⟩
  · intro hs
    obtain ⟨hV, _, _⟩ := hM.start hs
    rw [hV] at hv
    simp at hv
  · intro en2 hen2
    exact hM.qge en2 (popMin_rest_subset hpop hen2)
  · intro u hu v hl
    obtain ⟨pp, hpp⟩ := hM.qmin u hu v hl
    rcases popMin_mem_cases hpop hpp with hh | hh
    · exfalso
      have : u = en.node := congrArg Entry.node hh
      rw [this] at hu
      exact hu hv
    · exact ⟨pp, hh⟩

theorem dInv_discard {g : Graph} {key : String} {s e : Node} {Q : List Entry}
    {V : List Node} {M : List (Node × Int)} {en : Entry} {rest : List Entry}
    (hD : DInv g key s e Q V M) (hpop : popMin Q = some (en, rest))
    (hv : en.node ∈ V) : DInv g key s e rest V M := by
  refine ⟨mInv_discard hD.core hpop hv, ?_, hD.vmin, ?_⟩
  · intro en2 hen2
    exact hD.entryOK en2 (popMin_rest_subset hpop hen2)
  · intro u hu v hl en2 hen2
    exact hD.minq u hu v hl en2 (popMin_rest_subset hpop hen2)

theorem mInv_expand {g : Graph} {key : String} {s e : Node} {Q : List Entry}
    {V : List Node} {M : List (Node × Int)} {en : Entry} {rest : List Entry}
    {al : AdjList} (hM : MInv g key s e Q V M) (hpop : popMin Q = some (en, rest))
    (hnv : en.node ∉ V) (hne : en.node ≠ e) (hal : adjOf g en.node = some al) :
    MInv g key s e
      (relaxAll (en.node :: V) en.cost (en.path ++ [en.node]) key al M rest).2
      (en.node :: V)
      (relaxAll (en.node :: V) en.cost (en.path ++ [en.node]) key al M rest).1 := by
  have hlookn : lookupA M en.node = some en.cost := popped_lookup hM hpop hnv
  refine ⟨?_, ?_, ?_, ?_, ?_⟩
  · intro hs
    exfalso
    simp only [List.mem_cons, not_or] at hs
    obtain ⟨_, hQ, _⟩ := hM.start hs.2
    rw [hQ] at hpop
    have := popMin_mem hpop
    simp only [List.mem_singleton] at this
    exact hs.1 (by rw [this])
  · simp only [List.mem_cons, not_or]
    exact ⟨fun h => hne h.symm, hM.eNotV⟩
  · exact relaxAll_qge (en.node :: V) en.cost (en.path ++ [en.node]) key al M rest
      (fun en2 hen2 => hM.qge en2 (popMin_rest_subset hpop hen2))
  · refine relaxAll_qmin (en.node :: V) en.cost (en.path ++ [en.node]) key al M rest
      ?_
    intro u hu v hl
    simp only [List.mem_cons, not_or] at hu
    obtain ⟨pp, hpp⟩ := hM.qmin u hu.2 v hl
    rcases popMin_mem_cases hpop hpp with hh | hh
    · exfalso
      exact hu.1 (congrArg Entry.node hh)
    · exact ⟨pp, hh⟩
  · intro u hu
    rcases List.mem_cons.mp hu with hh | hh
    · subst hh
      refine ⟨al, hal, en.cost, ?_, ?_⟩
      · rw [relaxAll_m_visited _ _ _ _ _ _ _ _ (List.mem_cons_self _ _)]
        exact hlookn
      · intro nb hnb hnbv
        exact relaxAll_frontier (en.node :: V) en.cost (en.path ++ [en.node]) key
          al M rest nb.1 nb.2 (by simpa using hnb) hnbv
    · obtain ⟨alu, halu, du, hdu, hinner⟩ := hM.frontier u hh
      refine ⟨alu, halu, du, ?_, ?_⟩
      · rw [relaxAll_m_visited _ _ _ _ _ _ _ _ (List.mem_cons_of_mem _ hh)]
        exact hdu
      · intro nb hnb hnbv
        have hnbv2 : nb.1 ∉ V := fun hx => hnbv (List.mem_cons_of_mem _ hx)
        obtain ⟨vx, hvx, hvxle⟩ := hinner nb hnb hnbv2
        obtain ⟨vx2, hvx2, hvx2le⟩ :=
          relaxAll_m_le (en.node :: V) en.cost (en.path ++ [en.node]) key al M rest
            nb.1 vx hvx
        exact ⟨vx2, hvx2, le_trans hvx2le hvxle⟩

theorem dInv_expand {g : Graph} {key : String} {s e : Node} {Q : List Entry}
    {V : List Node} {M : List (Node × Int)} {en : Entry} {rest : List Entry}
    {al : AdjList} (hwf : WF g) (hnn : NonnegW g key)
    (hD : DInv g key s e Q V M) (hpop : popMin Q = some (en, rest))
    (hnv : en.node ∉ V) (hne : en.node ≠ e) (hal : adjOf g en.node = some al) :
    DInv g key s e
      (relaxAll (en.node :: V) en.cost (en.path ++ [en.node]) key al M rest).2
      (en.node :: V)
      (relaxAll (en.node :: V) en.cost (en.path ++ [en.node]) key al M rest).1 := by
  have hlookn : lookupA M en.node = some en.cost := popped_lookup hD.core hpop hnv
  have henOK : EntryOK g key s V en := hD.entryOK en (popMin_mem hpop)
  have hlookn1 : lookupA
      (relaxAll (en.node :: V) en.cost (en.path ++ [en.node]) key al M rest).1
      en.node = some en.cost := by
    rw [relaxAll_m_visited _ _ _ _ _ _ _ _ (List.mem_cons_self _ _)]
    exact hlookn
  have hgal : (en.node, al) ∈ g := adjOf_mem hal
  have halnd : (al.map Prod.fst).Nodup := hwf.2 (en.node, al) hgal
  obtain ⟨news, hq1, hlen, hprops⟩ :=
    relaxAll_queue (en.node :: V) en.cost (en.path ++ [en.node]) key al M rest
  have hwalkn : IsWalkFrom g key s en.node (en.path ++ [en.node]) en.cost :=
    ⟨henOK.1, (List.getLast?_concat _), henOK.2.2.1⟩
  refine ⟨mInv_expand hD.core hpop hnv hne hal, ?_, ?_, ?_⟩
  · intro en2 hen2
    rw [hq1] at hen2
    rcases List.mem_append.mp hen2 with hh | hh
    · exact entryOK_mono (fun x hx => List.mem_cons_of_mem _ hx)
        (hD.entryOK en2 (popMin_rest_subset hpop hh))
    · obtain ⟨hpath, hnvis, attrs, hmem, hcost⟩ := hprops en2 hh
      have hlook : lookupA al en2.node = some attrs :=
        lookupA_of_mem_nodup halnd hmem
      have hedge : edgeW g key en.node en2.node = some (getAttr attrs key) :=
        edgeW_intro key hal hlook
      have hsubv : ∀ x ∈ en.path ++ [en.node], x ∈ en.node :: V := by
        intro x hx
        rcases List.mem_append.mp hx with hx1 | hx1
        · exact List.mem_cons_of_mem _ (henOK.2.2.2 x hx1)
        · simp only [List.mem_singleton] at hx1
          subst hx1
          exact List.mem_cons_self _ _
      refine ⟨?_, ?_, ?_, ?_⟩
      · rw [hpath]
        exact head?_append_left henOK.1
      · rw [hpath]
        refine nodup_snoc henOK.2.1 ?_
        intro hmem2
        exact hnvis (hsubv en2.node hmem2)
      · rw [hpath, hcost]
        exact walkCost_snoc_intro ((List.getLast?_concat _)) henOK.2.2.1 hedge
      · intro x hx
        rw [hpath] at hx
        exact hsubv x hx
  · intro u hu
    rcases List.mem_cons.mp hu with hh | hh
    · subst hh
      refine ⟨en.cost, hlookn1, walkTo_of_walk hwalkn, ?_⟩
      intro d hd
      exact pop_min_bound hnn hD hpop en.node d hd hnv
    · obtain ⟨v, hv, hmin⟩ := hD.vmin u hh
      refine ⟨v, ?_, hmin⟩
      rw [relaxAll_m_visited _ _ _ _ _ _ _ _ (List.mem_cons_of_mem _ hh)]
      exact hv
  · intro u hu v hl en2 hen2
    rw [hq1] at hen2
    have hnewscost : ∀ en3 ∈ news, en.cost ≤ en3.cost := by
      intro en3 hen3
      obtain ⟨_, _, attrs, hmem, hcost⟩ := hprops en3 hen3
      have : 0 ≤ getAttr attrs key := hnn (en.node, al) hgal (en3.node, attrs) hmem
      omega
    rcases List.mem_cons.mp hu with hh | hh
    · subst hh
      rw [hlookn1] at hl
      simp only [Option.some.injEq] at hl
      subst hl
      rcases List.mem_append.mp hen2 with hh2 | hh2
      · exact popMin_cost_le hpop en2 (popMin_rest_subset hpop hh2)
      · exact hnewscost en2 hh2
    · rw [relaxAll_m_visited _ _ _ _ _ _ _ _ (List.mem_cons_of_mem _ hh)] at hl
      have hven : v ≤ en.cost := hD.minq u hh v hl en (popMin_mem hpop)
      rcases List.mem_append.mp hen2 with hh2 | hh2
      · exact hD.minq u hh v hl en2 (popMin_rest_subset hpop hh2)
      · exact le_trans hven (hnewscost en2 hh2)


/-! ### Loop step equations -/

theorem loop_succ_none {g : Graph} {e : Node} {key : String} {n : Nat}
    {Q : List Entry} {V : List Node} {M : List (Node × Int)}
    (hpop : popMin Q = none) : loop g e key (n + 1) Q V M = .noPath := by
  simp only [loop, hpop]

theorem loop_succ_vis {g : Graph} {e : Node} {key : String} {n : Nat}
    {Q : List Entry} {V : List Node} {M : List (Node × Int)} {en : Entry}
    {rest : List Entry} (hpop : popMin Q = some (en, rest)) (hv : en.node ∈ V) :
    loop g e key (n + 1) Q V M = loop g e key n rest V M := by
  simp only [loop, hpop, if_pos hv]

theorem loop_succ_found {g : Graph} {e : Node} {key : String} {n : Nat}
    {Q : List Entry} {V : List Node} {M : List (Node × Int)} {en : Entry}
    {rest : List Entry} (hpop : popMin Q = some (en, rest)) (hv : en.node ∉ V)
    (hne : en.node = e) :
    loop g e key (n + 1) Q V M = .found en.cost (en.path ++ [en.node]) := by
  simp only [loop, hpop, if_neg hv, if_pos hne]

theorem loop_succ_keyErr {g : Graph} {e : Node} {key : String} {n : Nat}
    {Q : List Entry} {V : List Node} {M : List (Node × Int)} {en : Entry}
    {rest : List Entry} (hpop : popMin Q = some (en, rest)) (hv : en.node ∉ V)
    (hne : en.node ≠ e) (hal : adjOf g en.node = none) :
    loop g e key (n + 1) Q V M = .keyErr en.node := by
  simp only [loop, hpop, if_neg hv, if_neg hne, hal]

theorem loop_succ_expand {g : Graph} {e : Node} {key : String} {n : Nat}
    {Q : List Entry} {V : List Node} {M : List (Node × Int)} {en : Entry}
    {rest : List Entry} {al : AdjList} (hpop : popMin Q = some (en, rest))
    (hv : en.node ∉ V) (hne : en.node ≠ e) (hal : adjOf g en.node = some al) :
    loop g e key (n + 1) Q V M =
      loop g e key n
        (relaxAll (en.node :: V) en.cost (en.path ++ [en.node]) key al M rest).2
        (en.node :: V)
        (relaxAll (en.node :: V) en.cost (en.path ++ [en.node]) key al M rest).1 := by
  simp only [loop, hpop, if_neg hv, if_neg hne, hal]

/-! ### Master loop lemmas -/

/-- Preservation of entry well-formedness alone through an expansion step
(used by the claims that do not need non-negative weights). -/
theorem bInv_expand {g : Graph} {key : String} {s : Node} {Q : List Entry}
    {V : List Node} {M : List (Node × Int)} {en : Entry} {rest : List Entry}
    {al : AdjList} (hwf : WF g) (hB : ∀ en2 ∈ Q, EntryOK g key s V en2)
    (hpop : popMin Q = some (en, rest)) (hnv : en.node ∉ V)
    (hal : adjOf g en.node = some al) :
    ∀ en2 ∈ (relaxAll (en.node :: V) en.cost (en.path ++ [en.node]) key al M rest).2,
      EntryOK g key s (en.node :: V) en2 := by
  have henOK : EntryOK g key s V en := hB en (popMin_mem hpop)
  have hgal : (en.node, al) ∈ g := adjOf_mem hal
  have halnd : (al.map Prod.fst).Nodup := hwf.2 (en.node, al) hgal
  obtain ⟨news, hq1, hlen, hprops⟩ :=
    relaxAll_queue (en.node :: V) en.cost (en.path ++ [en.node]) key al M rest
  intro en2 hen2
  rw [hq1] at hen2
  rcases List.mem_append.mp hen2 with hh | hh
  · exact entryOK_mono (fun x hx => List.mem_cons_of_mem _ hx)
      (hB en2 (popMin_rest_subset hpop hh))
  · obtain ⟨hpath, hnvis, attrs, hmem, hcost⟩ := hprops en2 hh
    have hlook : lookupA al en2.node = some attrs :=
      lookupA_of_mem_nodup halnd hmem
    have hedge : edgeW g key en.node en2.node = some (getAttr attrs key) :=
      edgeW_intro key hal hlook
    have hsubv : ∀ x ∈ en.path ++ [en.node], x ∈ en.node :: V := by
      intro x hx
      rcases List.mem_append.mp hx with hx1 | hx1
      · exact List.mem_cons_of_mem _ (henOK.2.2.2 x hx1)
      · simp only [List.mem_singleton] at hx1
        subst hx1
        exact List.mem_cons_self _ _
    refine ⟨?_, ?_, ?_, ?_⟩
    · rw [hpath]
      exact head?_append_left henOK.1
    · rw [hpath]
      refine nodup_snoc henOK.2.1 ?_
      intro hmem2
      exact hnvis (hsubv en2.node hmem2)
    · rw [hpath, hcost]
      exact walkCost_snoc_intro (List.getLast?_concat _) henOK.2.2.1 hedge
    · intro x hx
      rw [hpath] at hx
      exact hsubv x hx

/-- A `found` result is a genuine duplicate-free walk from `s` to `e` whose
total weight is the returned cost. -/
theorem loop_found_basic {g : Graph} {key : String} {s e : Node} (hwf : WF g) :
    ∀ (fuel : Nat) (Q : List Entry) (V : List Node) (M : List (Node × Int))
      (c : Int) (p : List Node),
    (∀ en ∈ Q, EntryOK g key s V en) →
    loop g e key fuel Q V M = .found c p →
    p.head? = some s ∧ p.getLast? = some e ∧ p.Nodup ∧
      walkCost g key p = some c := by
  intro fuel
  induction fuel with
  | zero =>
      intro Q V M c p hB h
      simp [loop] at h
  | succ n ih =>
      intro Q V M c p hB h
      cases hpop : popMin Q with
      | none =>
          rw [loop_succ_none hpop] at h
          simp at h
      | some pr =>
          obtain ⟨en, rest⟩ := pr
          by_cases hv : en.node ∈ V
          · rw [loop_succ_vis hpop hv] at h
            exact ih rest V M c p
              (fun e2 he2 => hB e2 (popMin_rest_subset hpop he2)) h
          · by_cases hne : en.node = e
            · rw [loop_succ_found hpop hv hne] at h
              simp only [RouteResult.found.injEq] at h
              obtain ⟨hc, hp⟩ := h
              subst hc
              subst hp
              have henOK := hB en (popMin_mem hpop)
              refine ⟨henOK.1, ?_, henOK.2.1, henOK.2.2.1⟩
              rw [← hne]
              exact List.getLast?_concat _
            · cases hal : adjOf g en.node with
              | none =>
                  rw [loop_succ_keyErr hpop hv hne hal] at h
                  simp at h
              | some al =>
                  rw [loop_succ_expand hpop hv hne hal] at h
                  exact ih _ _ _ c p (bInv_expand hwf hB hpop hv hal) h

/-- A `found` cost is a lower bound of the weights of all walks from `s`
to `e` (under non-negative weights). -/
theorem loop_found_min {g : Graph} {key : String} {s e : Node} (hwf : WF g)
    (hnn : NonnegW g key) :
    ∀ (fuel : Nat) (Q : List Entry) (V : List Node) (M : List (Node × Int))
      (c : Int) (p : List Node),
    DInv g key s e Q V M →
    loop g e key fuel Q V M = .found c p →
    ∀ d, WalkTo g key s e d → c ≤ d := by
  intro fuel
  induction fuel with
  | zero =>
      intro Q V M c p hD h
      simp [loop] at h
  | succ n ih =>
      intro Q V M c p hD h
      cases hpop : popMin Q with
      | none =>
          rw [loop_succ_none hpop] at h
          simp at h
      | some pr =>
          obtain ⟨en, rest⟩ := pr
          by_cases hv : en.node ∈ V
          · rw [loop_succ_vis hpop hv] at h
            exact ih rest V M c p (dInv_discard hD hpop hv) h
          · by_cases hne : en.node = e
            · rw [loop_succ_found hpop hv hne] at h
              simp only [RouteResult.found.injEq] at h
              obtain ⟨hc, hp⟩ := h
              subst hc
              intro d hd
              exact pop_min_bound hnn hD hpop e d hd hD.core.eNotV
            · cases hal : adjOf g en.node with
              | none =>
                  rw [loop_succ_keyErr hpop hv hne hal] at h
                  simp at h
              | some al =>
                  rw [loop_succ_expand hpop hv hne hal] at h
                  exact ih _ _ _ c p (dInv_expand hwf hnn hD hpop hv hne hal) h

/-- If the queue drains (`noPath`), there is no walk from `s` to `e`. -/
theorem loop_noPath_unreach {g : Graph} {key : String} {s e : Node} :
    ∀ (fuel : Nat) (Q : List Entry) (V : List Node) (M : List (Node × Int)),
    MInv g key s e Q V M →
    loop g e key fuel Q V M = .noPath →
    ∀ d, ¬ WalkTo g key s e d := by
  intro fuel
  induction fuel with
  | zero =>
      intro Q V M hM h
      simp [loop] at h
  | succ n ih =>
      intro Q V M hM h
      cases hpop : popMin Q with
      | none =>
          have hQnil := popMin_eq_none hpop
          intro d hw
          have hall : ∀ z dz, WalkTo g key s z dz → z ∈ V := by
            intro z dz hwz
            induction hwz with
            | base =>
                by_contra hs
                obtain ⟨_, hQ, _⟩ := hM.start hs
                rw [hQnil] at hQ
                simp at hQ
            | step hwv hedge ihz =>
                rename_i v u dv wv
                by_contra hu
                obtain ⟨al2, attrs, hal2, hmem, _, _⟩ := edgeW_elim hedge
                obtain ⟨al, hal, du, hdu, hinner⟩ := hM.frontier v ihz
                rw [hal] at hal2
                have hale : al = al2 := by simpa using hal2
                subst hale
                obtain ⟨vx, hvx, _⟩ := hinner (u, attrs) hmem hu
                obtain ⟨pp, hpp⟩ := hM.qmin u hu vx hvx
                rw [hQnil] at hpp
                simp at hpp
          exact hM.eNotV (hall e d hw)
      | some pr =>
          obtain ⟨en, rest⟩ := pr
          by_cases hv : en.node ∈ V
          · rw [loop_succ_vis hpop hv] at h
            exact ih rest V M (mInv_discard hM hpop hv) h
          · by_cases hne : en.node = e
            · rw [loop_succ_found hpop hv hne] at h
              simp at h
            · cases hal : adjOf g en.node with
              | none =>
                  rw [loop_succ_keyErr hpop hv hne hal] at h
                  simp at h
              | some al =>
                  rw [loop_succ_expand hpop hv hne hal] at h
                  exact ih _ _ _ (mInv_expand hM hpop hv hne hal) h


/-! ### Termination and absence of KeyError -/

theorem filter_length_le {α : Type} (l : List α) (p q : α → Bool)
    (himp : ∀ a, q a = true → p a = true) :
    (l.filter q).length ≤ (l.filter p).length := by
  induction l with
  | nil => simp
  | cons x xs ih =>
      by_cases hq : q x = true
      · simp only [List.filter_cons, hq, himp x hq, if_true, List.length_cons]
        omega
      · rw [Bool.not_eq_true] at hq
        simp only [List.filter_cons, hq, Bool.false_eq_true, if_false]
        by_cases hp : p x = true
        · simp only [hp, if_true, List.length_cons]
          omega
        · rw [Bool.not_eq_true] at hp
          simp only [hp, Bool.false_eq_true, if_false]
          exact ih

theorem filter_length_lt {α : Type} {l : List α} {x : α} (p q : α → Bool)
    (himp : ∀ a, q a = true → p a = true) (hx : x ∈ l) (hpx : p x = true)
    (hqx : q x = false) : (l.filter q).length < (l.filter p).length := by
  induction l with
  | nil => simp at hx
  | cons y ys ih =>
      rcases List.mem_cons.mp hx with hh | hh
      · subst hh
        simp only [List.filter_cons, hpx, hqx, Bool.false_eq_true, if_false,
          if_true, List.length_cons]
        have := filter_length_le ys p q himp
        omega
      · by_cases hq : q y = true
        · simp only [List.filter_cons, hq, himp y hq, if_true, List.length_cons]
          exact Nat.succ_lt_succ (ih hh)
        · rw [Bool.not_eq_true] at hq
          simp only [List.filter_cons, hq, Bool.false_eq_true, if_false]
          by_cases hp : p y = true
          · simp only [hp, if_true, List.length_cons]
            have := ih hh
            omega
          · rw [Bool.not_eq_true] at hp
            simp only [hp, Bool.false_eq_true, if_false]
            exact ih hh

theorem mem_al_length_le {g : Graph} {u : Node} {al : AdjList}
    (h : (u, al) ∈ g) : al.length ≤ totalAdj g := by
  induction g with
  | nil => simp at h
  | cons p rest ih =>
      rcases List.mem_cons.mp h with hh | hh
      · have : al = p.2 := by rw [← hh]
        subst this
        simp only [totalAdj, List.map_cons, List.sum_cons]
        omega
      · have := ih hh
        simp only [totalAdj, List.map_cons, List.sum_cons] at this ⊢
        omega

theorem mem_nbr_uni {g : Graph} {u : Node} {al : AdjList} {nbr : Node}
    {attrs : Attrs} (s : Node) (h : (u, al) ∈ g) (h2 : (nbr, attrs) ∈ al) :
    nbr ∈ uni g s := by
  unfold uni
  refine List.mem_cons_of_mem _ (List.mem_append.mpr (Or.inr ?_))
  unfold nbrNodes
  exact List.mem_flatten.mpr
    ⟨al.map Prod.fst, List.mem_map.mpr ⟨(u, al), h, rfl⟩,
      List.mem_map.mpr ⟨(nbr, attrs), h2, rfl⟩⟩

/-- The loop measure: queue size plus a weighted count of unvisited
potential nodes. -/
def measureL (g : Graph) (s : Node) (Q : List Entry) (V : List Node) : Nat :=
  Q.length +
    (totalAdj g + 1) * ((uni g s).filter fun x => decide (x ∉ V)).length

/-- The loop never exhausts fuel exceeding the measure. -/
theorem loop_ne_fuelOut {g : Graph} {key : String} {s e : Node} :
    ∀ (fuel : Nat) (Q : List Entry) (V : List Node) (M : List (Node × Int)),
    (∀ en ∈ Q, en.node ∈ uni g s) →
    measureL g s Q V < fuel →
    loop g e key fuel Q V M ≠ .fuelOut := by
  intro fuel
  induction fuel with
  | zero =>
      intro Q V M hU hm
      omega
  | succ n ih =>
      intro Q V M hU hm
      cases hpop : popMin Q with
      | none =>
          rw [loop_succ_none hpop]
          simp
      | some pr =>
          obtain ⟨en, rest⟩ := pr
          have hlen := popMin_length hpop
          by_cases hv : en.node ∈ V
          · rw [loop_succ_vis hpop hv]
            refine ih rest V M
              (fun e2 he2 => hU e2 (popMin_rest_subset hpop he2)) ?_
            unfold measureL at hm ⊢
            omega
          · by_cases hne : en.node = e
            · rw [loop_succ_found hpop hv hne]
              simp
            · cases hal : adjOf g en.node with
              | none =>
                  rw [loop_succ_keyErr hpop hv hne hal]
                  simp
              | some al =>
                  rw [loop_succ_expand hpop hv hne hal]
                  obtain ⟨news, hq1, hnlen, hprops⟩ :=
                    relaxAll_queue (en.node :: V) en.cost (en.path ++ [en.node])
                      key al M rest
                  have hgal : (en.node, al) ∈ g := adjOf_mem hal
                  refine ih _ _ _ ?_ ?_
                  · intro e2 he2
                    rw [hq1] at he2
                    rcases List.mem_append.mp he2 with hh | hh
                    · exact hU e2 (popMin_rest_subset hpop hh)
                    · obtain ⟨_, _, attrs, hmem, _⟩ := hprops e2 hh
                      exact mem_nbr_uni s hgal hmem
                  · have hq1len :
                        (relaxAll (en.node :: V) en.cost (en.path ++ [en.node])
                          key al M rest).2.length ≤ rest.length + al.length := by
                      rw [hq1]
                      simp only [List.length_append]
                      omega
                    have hallen : al.length ≤ totalAdj g := mem_al_length_le hgal
                    have hcnt :
                        ((uni g s).filter fun x => decide (x ∉ en.node :: V)).length
                          < ((uni g s).filter fun x => decide (x ∉ V)).length := by
                      refine filter_length_lt _ _ ?_ (hU en (popMin_mem hpop))
                        ?_ ?_
                      · intro a ha
                        simp only [decide_eq_true_eq] at ha ⊢
                        intro hav
                        exact ha (List.mem_cons_of_mem _ hav)
                      · simpa using hv
                      · simp
                    unfold measureL at hm ⊢
                    have hD1 : (totalAdj g + 1) *
                        ((uni g s).filter fun x => decide (x ∉ en.node :: V)).length
                          + (totalAdj g + 1)
                        ≤ (totalAdj g + 1) *
                          ((uni g s).filter fun x => decide (x ∉ V)).length := by
                      have := Nat.mul_le_mul_left (totalAdj g + 1)
                        (Nat.succ_le_of_lt hcnt)
                      simpa [Nat.mul_succ] using this
                    omega

/-- With a closed graph, the loop never raises `KeyError` when every queued
node is the goal or a graph node. -/
theorem loop_ne_keyErr {g : Graph} {key : String} {s e : Node} (hcl : Closed g) :
    ∀ (fuel : Nat) (Q : List Entry) (V : List Node) (M : List (Node × Int)),
    (∀ en ∈ Q, en.node = e ∨ en.node ∈ graphNodes g) →
    ∀ x, loop g e key fuel Q V M ≠ .keyErr x := by
  intro fuel
  induction fuel with
  | zero =>
      intro Q V M hK x
      simp [loop]
  | succ n ih =>
      intro Q V M hK x
      cases hpop : popMin Q with
      | none =>
          rw [loop_succ_none hpop]
          simp
      | some pr =>
          obtain ⟨en, rest⟩ := pr
          by_cases hv : en.node ∈ V
          · rw [loop_succ_vis hpop hv]
            exact ih rest V M
              (fun e2 he2 => hK e2 (popMin_rest_subset hpop he2)) x
          · by_cases hne : en.node = e
            · rw [loop_succ_found hpop hv hne]
              simp
            · cases hal : adjOf g en.node with
              | none =>
                  exfalso
                  rcases hK en (popMin_mem hpop) with hh | hh
                  · exact hne hh
                  · obtain ⟨al, hal2⟩ := mem_graphNodes_adjOf hh
                    rw [hal] at hal2
                    simp at hal2
              | some al =>
                  rw [loop_succ_expand hpop hv hne hal]
                  obtain ⟨news, hq1, _, hprops⟩ :=
                    relaxAll_queue (en.node :: V) en.cost (en.path ++ [en.node])
                      key al M rest
                  have hgal : (en.node, al) ∈ g := adjOf_mem hal
                  refine ih _ _ _ ?_ x
                  intro e2 he2
                  rw [hq1] at he2
                  rcases List.mem_append.mp he2 with hh | hh
                  · exact hK e2 (popMin_rest_subset hpop hh)
                  · obtain ⟨_, _, attrs, hmem, _⟩ := hprops e2 hh
                    exact Or.inr (hcl (en.node, al) hgal (e2.node, attrs) hmem)


/-! ### Whole-search results -/

/-- The search always terminates: the initial fuel dominates the measure. -/
theorem route_ne_fuelOut (g : Graph) (s e : Node) (key : String) :
    calculate_optimal_route g s e key ≠ .fuelOut := by
  unfold calculate_optimal_route
  refine @loop_ne_fuelOut g key s e (initFuel g s) _ _ _ ?_ ?_
  · intro en hen
    simp only [List.mem_singleton] at hen
    subst hen
    exact List.mem_cons_self _ _
  · unfold measureL initFuel
    have hle : ((uni g s).filter fun x => decide (x ∉ ([] : List Node))).length
        ≤ (uni g s).length := List.length_filter_le _ _
    have hmul := Nat.mul_le_mul_left (totalAdj g + 1) hle
    simp only [List.length_singleton]
    omega

/-- Every found result is a duplicate-free walk from start to goal realizing
the returned cost. -/
theorem route_found_props {g : Graph} {key : String} {s e : Node} {c : Int}
    {p : List Node} (hwf : WF g)
    (h : calculate_optimal_route g s e key = .found c p) :
    p.head? = some s ∧ p.getLast? = some e ∧ p.Nodup ∧
      walkCost g key p = some c := by
  unfold calculate_optimal_route at h
  refine loop_found_basic hwf _ _ _ _ c p ?_ h
  intro en hen
  simp only [List.mem_singleton] at hen
  subst hen
  exact ⟨rfl, by simp, rfl, by simp⟩

/-- Under non-negative weights, a found cost is minimal among all walks. -/
theorem route_found_min {g : Graph} {key : String} {s e : Node} {c : Int}
    {p : List Node} (hwf : WF g) (hnn : NonnegW g key)
    (h : calculate_optimal_route g s e key = .found c p) :
    ∀ d, WalkTo g key s e d → c ≤ d := by
  unfold calculate_optimal_route at h
  exact loop_found_min hwf hnn _ _ _ _ c p (dInv_initial g key s e) h

/-- A `noPath` result means the goal is unreachable. -/
theorem route_noPath_unreach {g : Graph} {key : String} {s e : Node}
    (h : calculate_optimal_route g s e key = .noPath) :
    ∀ d, ¬ WalkTo g key s e d := by
  unfold calculate_optimal_route at h
  exact loop_noPath_unreach _ _ _ _ (mInv_initial g key s e) h

/-- With a closed graph and a known (or trivial) start, no `KeyError`. -/
theorem route_ne_keyErr {g : Graph} {key : String} {s e : Node} (hcl : Closed g)
    (hs : s = e ∨ s ∈ graphNodes g) :
    ∀ x, calculate_optimal_route g s e key ≠ .keyErr x := by
  unfold calculate_optimal_route
  refine @loop_ne_keyErr g key s e hcl (initFuel g s) _ _ _ ?_
  intro en hen
  simp only [List.mem_singleton] at hen
  subst hen
  exact hs

/-- With a closed graph and a known (or trivial) start, the search returns a
`(cost, path)` pair or the unreachable sentinel. -/
theorem route_cases {g : Graph} {key : String} {s e : Node} (hcl : Closed g)
    (hs : s = e ∨ s ∈ graphNodes g) :
    (∃ c p, calculate_optimal_route g s e key = .found c p) ∨
      calculate_optimal_route g s e key = .noPath := by
  cases h : calculate_optimal_route g s e key with
  | found c p => exact Or.inl ⟨c, p, rfl⟩
  | noPath => exact Or.inr rfl
  | keyErr x => exact absurd h (route_ne_keyErr hcl hs x)
  | fuelOut => exact absurd h (route_ne_fuelOut g s e key)

theorem adjOf_mem_graphNodes {g : Graph} {u : Node} {al : AdjList}
    (h : adjOf g u = some al) : u ∈ graphNodes g := by
  unfold graphNodes
  exact List.mem_map.mpr ⟨(u, al), adjOf_mem h, rfl⟩

/-- A walk either starts and ends at the same node, or its start is a node
of the graph. -/
theorem walk_start_cases {g : Graph} {key : String} {s z : Node} {l : List Node}
    {d : Int} (h : IsWalkFrom g key s z l d) : s = z ∨ s ∈ graphNodes g := by
  obtain ⟨hh, hl, hc⟩ := h
  cases l with
  | nil => simp at hh
  | cons a rest =>
      simp only [List.head?_cons, Option.some.injEq] at hh
      subst hh
      cases rest with
      | nil =>
          simp only [List.getLast?_singleton, Option.some.injEq] at hl
          exact Or.inl hl
      | cons b rest2 =>
          simp only [walkCost] at hc
          cases hw : edgeW g key a b with
          | none => rw [hw] at hc; simp at hc
          | some w =>
              obtain ⟨al, attrs, hadj, _, _, _⟩ := edgeW_elim hw
              exact Or.inr (adjOf_mem_graphNodes hadj)

/-- Full optimality: in a well-formed closed graph with non-negative weights
for `key`, if any walk from `s` to `e` exists, the search returns a cost and
path, the path is a walk realizing the cost, and the cost is the minimum
weight over all walks from `s` to `e`. -/
theorem route_optimal {g : Graph} {key : String} {s e : Node} (hwf : WF g)
    (hcl : Closed g) (hnn : NonnegW g key)
    (hreach : ∃ l d, IsWalkFrom g key s e l d) :
    ∃ c p, calculate_optimal_route g s e key = .found c p ∧
      IsWalkFrom g key s e p c ∧
      ∀ l d, IsWalkFrom g key s e l d → c ≤ d := by
  obtain ⟨l0, d0, hw0⟩ := hreach
  have hs := walk_start_cases hw0
  rcases @route_cases g key s e hcl hs with ⟨c, p, hfound⟩ | hnp
  · obtain ⟨hph, hpl, hpn, hpc⟩ := route_found_props hwf hfound
    refine ⟨c, p, hfound, ⟨hph, hpl, hpc⟩, ?_⟩
    intro l d hld
    exact route_found_min hwf hnn hfound d (walkTo_of_walk hld)
  · exact absurd (walkTo_of_walk hw0) (route_noPath_unreach hnp d0)

/-- If the goal is not reachable (and the graph is well formed and closed and
the start is present or trivial), the search returns the sentinel. -/
theorem route_noPath_of_unreach {g : Graph} {key : String} {s e : Node}
    (hwf : WF g) (hcl : Closed g) (hs : s = e ∨ s ∈ graphNodes g)
    (hunreach : ∀ l d, ¬ IsWalkFrom g key s e l d) :
    calculate_optimal_route g s e key = .noPath := by
  rcases @route_cases g key s e hcl hs with ⟨c, p, hfound⟩ | hnp
  · obtain ⟨hph, hpl, _, hpc⟩ := route_found_props hwf hfound
    exact absurd ⟨hph, hpl, hpc⟩ (hunreach p c)
  · exact hnp

/-- A goal node that never occurs as a neighbor and differs from the start is
unreachable. -/
theorem unreach_of_unknown_goal {g : Graph} {key : String} {s e : Node}
    (hne : s ≠ e) (hnb : e ∉ nbrNodes g) :
    ∀ l d, ¬ IsWalkFrom g key s e l d := by
  intro l d hld
  have hw := walkTo_of_walk hld
  cases hw with
  | base => exact hne rfl
  | step hwv hedge =>
      rename_i v dv wv
      obtain ⟨al, attrs, hadj, hmem, _, _⟩ := edgeW_elim hedge
      refine hnb (List.mem_flatten.mpr ⟨al.map Prod.fst, ?_, ?_⟩)
      · exact List.mem_map.mpr ⟨(v, al), adjOf_mem hadj, rfl⟩
      · exact List.mem_map.mpr ⟨(e, attrs), hmem, rfl⟩


/-! ### Symmetry of undirected graphs -/

theorem edgeAttrs_symm {g : Graph} (hsym : Symm g) {u v : Node} {attrs : Attrs}
    (h : edgeAttrs g u v = some attrs) : edgeAttrs g v u = some attrs := by
  obtain ⟨al, hadj, hmem, _⟩ := edgeAttrs_elim h
  exact hsym (u, al) (adjOf_mem hadj) (v, attrs) hmem

theorem edgeW_symm {g : Graph} (key : String) (hsym : Symm g) (u v : Node) :
    edgeW g key u v = edgeW g key v u := by
  unfold edgeW
  cases hab : edgeAttrs g u v with
  | none =>
      cases hba : edgeAttrs g v u with
      | none => rfl
      | some attrs =>
          have h2 := edgeAttrs_symm hsym hba
          rw [hab] at h2
          simp at h2
  | some attrs =>
      have h2 := edgeAttrs_symm hsym hab
      rw [h2]

theorem walkCost_reverse {g : Graph} {key : String}
    (hsym : ∀ u v, edgeW g key u v = edgeW g key v u) :
    ∀ l : List Node, walkCost g key l.reverse = walkCost g key l := by
  intro l
  induction l with
  | nil => rfl
  | cons a rest ih =>
      cases rest with
      | nil => rfl
      | cons b rest2 =>
          have hrev : (a :: b :: rest2).reverse = (b :: rest2).reverse ++ [a] := by
            simp
          rw [hrev]
          have hlast : (b :: rest2).reverse.getLast? = some b := by
            rw [List.getLast?_reverse]
            rfl
          have hne : (b :: rest2).reverse ≠ [] := by simp
          cases hw : edgeW g key a b with
          | none =>
              have hRHS : walkCost g key (a :: b :: rest2) = none := by
                simp [walkCost, hw]
              rw [hRHS]
              cases hLHS : walkCost g key ((b :: rest2).reverse ++ [a]) with
              | none => rfl
              | some d =>
                  obtain ⟨v, dp, w2, hvl, hvc, hve, _⟩ := walkCost_snoc_elim hLHS hne
                  rw [hlast] at hvl
                  simp only [Option.some.injEq] at hvl
                  subst hvl
                  rw [hsym b a, hw] at hve
                  simp at hve
          | some w =>
              cases hc : walkCost g key (b :: rest2) with
              | none =>
                  have hRHS : walkCost g key (a :: b :: rest2) = none := by
                    simp [walkCost, hw, hc]
                  rw [hRHS]
                  cases hLHS : walkCost g key ((b :: rest2).reverse ++ [a]) with
                  | none => rfl
                  | some d =>
                      obtain ⟨v, dp, w2, hvl, hvc, hve, _⟩ :=
                        walkCost_snoc_elim hLHS hne
                      rw [ih] at hvc
                      rw [hc] at hvc
                      simp at hvc
              | some c =>
                  have hRHS : walkCost g key (a :: b :: rest2) = some (w + c) := by
                    simp [walkCost, hw, hc]
                  rw [hRHS]
                  have hba : edgeW g key b a = some w := by
                    rw [hsym b a]
                    exact hw
                  have hrc : walkCost g key (b :: rest2).reverse = some c := by
                    rw [ih]
                    exact hc
                  rw [walkCost_snoc_intro hlast hrc hba]
                  simp only [Option.some.injEq]
                  omega

theorem walkFrom_reverse {g : Graph} {key : String} {s z : Node} {l : List Node}
    {d : Int} (hsym : ∀ u v, edgeW g key u v = edgeW g key v u)
    (h : IsWalkFrom g key s z l d) : IsWalkFrom g key z s l.reverse d := by
  obtain ⟨hh, hl, hc⟩ := h
  refine ⟨?_, ?_, ?_⟩
  · rw [List.head?_reverse]
    exact hl
  · rw [List.getLast?_reverse]
    exact hh
  · rw [walkCost_reverse hsym]
    exact hc

/-- Under symmetry, well-formedness, closedness and non-negative weights,
the search returns the same cost in both directions between two graph nodes,
and one direction is the sentinel exactly when the other is. -/
def resultCost : RouteResult → Option Int
  | .found c _ => some c
  | _ => none

theorem route_symm {g : Graph} {key : String} {a b : Node} (hwf : WF g)
    (hcl : Closed g) (hsym : Symm g) (hnn : NonnegW g key)
    (ha : a ∈ graphNodes g) (hb : b ∈ graphNodes g) :
    resultCost (calculate_optimal_route g a b key) =
      resultCost (calculate_optimal_route g b a key) ∧
    (calculate_optimal_route g a b key = .noPath ↔
      calculate_optimal_route g b a key = .noPath) := by
  have hesym := edgeW_symm key hsym
  by_cases hreach : ∃ l d, IsWalkFrom g key a b l d
  · obtain ⟨c1, p1, hf1, hw1, hmin1⟩ := route_optimal hwf hcl hnn hreach
    have hreach2 : ∃ l d, IsWalkFrom g key b a l d := by
      obtain ⟨l, d, hld⟩ := hreach
      exact ⟨l.reverse, d, walkFrom_reverse hesym hld⟩
    obtain ⟨c2, p2, hf2, hw2, hmin2⟩ := route_optimal hwf hcl hnn hreach2
    have h12 : c1 ≤ c2 := hmin1 p2.reverse c2 (walkFrom_reverse hesym hw2)
    have h21 : c2 ≤ c1 := hmin2 p1.reverse c1 (walkFrom_reverse hesym hw1)
    have hcc : c1 = c2 := le_antisymm h12 h21
    rw [hf1, hf2]
    subst hcc
    exact ⟨rfl, by simp⟩
  · have hreach2 : ¬ ∃ l d, IsWalkFrom g key b a l d := by
      intro ⟨l, d, hld⟩
      exact hreach ⟨l.reverse, d, walkFrom_reverse hesym hld⟩
    have hnp1 : calculate_optimal_route g a b key = .noPath :=
      route_noPath_of_unreach hwf hcl (Or.inr ha)
        (fun l d hld => hreach ⟨l, d, hld⟩)
    have hnp2 : calculate_optimal_route g b a key = .noPath :=
      route_noPath_of_unreach hwf hcl (Or.inr hb)
        (fun l d hld => hreach2 ⟨l, d, hld⟩)
    rw [hnp1, hnp2]
    exact ⟨rfl, by simp⟩

/-! ### The default weight 1, made explicit -/

/-- Insert the attribute `(key, 1)` on every adjacency entry lacking `key`. -/
def patchAttrs (key : String) (attrs : Attrs) : Attrs :=
  if (lookupA attrs key).isSome then attrs else attrs ++ [(key, 1)]

/-- Apply `patchAttrs` to every adjacency entry of the graph. -/
def patchGraph (key : String) (g : Graph) : Graph :=
  g.map fun p => (p.1, p.2.map fun nb => (nb.1, patchAttrs key nb.2))

theorem lookupA_append_right {α : Type} {l1 : List (String × α)} {k : String}
    (l2 : List (String × α)) (h : lookupA l1 k = none) :
    lookupA (l1 ++ l2) k = lookupA l2 k := by
  induction l1 with
  | nil => simp
  | cons p rest ih =>
      obtain ⟨k1, a⟩ := p
      by_cases hk : k1 = k
      · subst hk
        simp [lookupA] at h
      · simp only [List.cons_append, lookupA, if_neg hk] at h ⊢
        exact ih h

theorem getAttr_patchAttrs (key : String) (attrs : Attrs) :
    getAttr (patchAttrs key attrs) key = getAttr attrs key := by
  unfold patchAttrs getAttr
  cases hl : lookupA attrs key with
  | some a => simp [hl]
  | none =>
      simp only [hl, Option.isSome_none, Bool.false_eq_true, if_false]
      rw [lookupA_append_right _ hl]
      simp [lookupA]

theorem lookupA_map_snd {α β : Type} (f : α → β) :
    ∀ (l : List (String × α)) (k : String),
    lookupA (l.map fun p => (p.1, f p.2)) k = (lookupA l k).map f := by
  intro l
  induction l with
  | nil => intro k; rfl
  | cons p rest ih =>
      intro k
      obtain ⟨k1, a⟩ := p
      by_cases hk : k1 = k
      · subst hk
        simp [lookupA]
      · simp [lookupA, hk, ih]

theorem adjOf_patch (key : String) (g : Graph) (u : Node) :
    adjOf (patchGraph key g) u =
      (adjOf g u).map fun al => al.map fun nb => (nb.1, patchAttrs key nb.2) := by
  unfold adjOf patchGraph
  exact lookupA_map_snd _ g u

theorem relaxAll_patch (key : String) (visited : List Node) (cost : Int)
    (npath : List Node) :
    ∀ (al : AdjList) (m : List (Node × Int)) (q : List Entry),
    relaxAll visited cost npath key
        (al.map fun nb => (nb.1, patchAttrs key nb.2)) m q =
      relaxAll visited cost npath key al m q := by
  intro al
  induction al with
  | nil =>
      intro m q
      rfl
  | cons nb rest ih =>
      intro m q
      obtain ⟨nbr, attrs⟩ := nb
      simp only [List.map_cons]
      have hg := getAttr_patchAttrs key attrs
      by_cases hv : nbr ∈ visited
      · rw [relaxAll_cons_vis hv, relaxAll_cons_vis hv, ih]
      · by_cases hpush : pushTest m nbr (cost + getAttr attrs key) = true
        · rw [relaxAll_cons_push hv (by rw [hg]; exact hpush),
            relaxAll_cons_push hv hpush, hg, ih]
        · rw [Bool.not_eq_true] at hpush
          rw [relaxAll_cons_skip hv (by rw [hg]; exact hpush),
            relaxAll_cons_skip hv hpush, ih]

theorem graphNodes_patch (key : String) (g : Graph) :
    graphNodes (patchGraph key g) = graphNodes g := by
  unfold graphNodes patchGraph
  rw [List.map_map]
  rfl

theorem nbrNodes_patch (key : String) (g : Graph) :
    nbrNodes (patchGraph key g) = nbrNodes g := by
  unfold nbrNodes patchGraph
  rw [List.map_map]
  congr 1
  refine List.map_congr_left ?_
  intro p hp
  simp [Function.comp, List.map_map]

theorem totalAdj_patch (key : String) (g : Graph) :
    totalAdj (patchGraph key g) = totalAdj g := by
  unfold totalAdj patchGraph
  rw [List.map_map]
  congr 1
  refine List.map_congr_left ?_
  intro p hp
  simp [Function.comp]

theorem initFuel_patch (key : String) (g : Graph) (s : Node) :
    initFuel (patchGraph key g) s = initFuel g s := by
  unfold initFuel uni
  rw [graphNodes_patch, nbrNodes_patch, totalAdj_patch]

theorem loop_patch {g : Graph} {e : Node} {key : String} :
    ∀ (fuel : Nat) (Q : List Entry) (V : List Node) (M : List (Node × Int)),
    loop (patchGraph key g) e key fuel Q V M = loop g e key fuel Q V M := by
  intro fuel
  induction fuel with
  | zero =>
      intro Q V M
      rfl
  | succ n ih =>
      intro Q V M
      cases hpop : popMin Q with
      | none => rw [loop_succ_none hpop, loop_succ_none hpop]
      | some pr =>
          obtain ⟨en, rest⟩ := pr
          by_cases hv : en.node ∈ V
          · rw [loop_succ_vis hpop hv, loop_succ_vis hpop hv, ih]
          · by_cases hne : en.node = e
            · rw [loop_succ_found hpop hv hne, loop_succ_found hpop hv hne]
            · cases hal : adjOf g en.node with
              | none =>
                  have hal2 : adjOf (patchGraph key g) en.node = none := by
                    rw [adjOf_patch, hal]
                    rfl
                  rw [loop_succ_keyErr hpop hv hne hal,
                    loop_succ_keyErr hpop hv hne hal2]
              | some al =>
                  have hal2 : adjOf (patchGraph key g) en.node =
                      some (al.map fun nb => (nb.1, patchAttrs key nb.2)) := by
                    rw [adjOf_patch, hal]
                    rfl
                  rw [loop_succ_expand hpop hv hne hal,
                    loop_succ_expand hpop hv hne hal2,
                    relaxAll_patch, ih]

/-- The search behaves identically on the graph with the default weight 1
made explicit: a missing attribute is treated as exactly 1. -/
theorem route_patch (g : Graph) (s e : Node) (key : String) :
    calculate_optimal_route (patchGraph key g) s e key =
      calculate_optimal_route g s e key := by
  unfold calculate_optimal_route
  rw [initFuel_patch, loop_patch]

/-! ### Direct evaluations of the first loop iteration -/

/-- An unknown start node with a different goal raises `KeyError`. -/
theorem route_unknown_start {g : Graph} {key : String} {s e : Node}
    (hs : s ∉ graphNodes g) (hne : s ≠ e) :
    calculate_optimal_route g s e key = .keyErr s := by
  unfold calculate_optimal_route
  obtain ⟨n, hn⟩ : ∃ n, initFuel g s = n + 1 :=
    ⟨1 + (totalAdj g + 1) * (uni g s).length, by unfold initFuel; omega⟩
  rw [hn]
  have hpop : popMin [Entry.mk 0 s []] = some (Entry.mk 0 s [], []) := rfl
  have hal : adjOf g s = none := by
    unfold adjOf
    refine lookupA_eq_none_iff.mpr ?_
    simpa [graphNodes] using hs
  exact loop_succ_keyErr hpop (by simp) hne hal

/-- Searching from a node to itself returns cost 0 and the one-node path,
whether or not the node is in the graph. -/
theorem route_trivial (g : Graph) (key : String) (X : Node) :
    calculate_optimal_route g X X key = .found 0 [X] := by
  unfold calculate_optimal_route
  obtain ⟨n, hn⟩ : ∃ n, initFuel g X = n + 1 :=
    ⟨1 + (totalAdj g + 1) * (uni g X).length, by unfold initFuel; omega⟩
  rw [hn]
  have hpop : popMin [Entry.mk 0 X []] = some (Entry.mk 0 X [], []) := rfl
  exact loop_succ_found hpop (by simp) rfl


/-! ### Concrete graphs for witnesses and counterexamples -/

/-- A symmetric 4-node map with one negative `w` weight, built with
`add_edge` exactly like `build_city_map`. -/
def negative_map : Graph :=
  [("a", "b", (1 : Int)), ("a", "c", 2), ("c", "b", -2), ("b", "d", 1)].foldl
    (fun g r => addEdge g r.1 r.2.1 [("w", r.2.2)]) []

/-! ### The claims -/

/-- C1: for every graph whose edges all have non-negative values for the
chosen weight key, and for every pair of nodes with the goal reachable from
the start, `calculate_optimal_route` returns a cost equal to the true minimum
over all start-to-goal paths of the sum of that key's edge values (a missing
key counting as 1).  `WF` and `Closed` state the dict-uniqueness and
neighbor-closure representation invariants every `networkx` graph has. -/
theorem claim_C1_optimal_cost (g : Graph) (key : String) (s e : Node)
    (hwf : WF g) (hcl : Closed g) (hnn : NonnegW g key)
    (hreach : ∃ l d, IsWalkFrom g key s e l d) :
    ∃ c p, calculate_optimal_route g s e key = .found c p ∧
      IsWalkFrom g key s e p c ∧
      ∀ l d, IsWalkFrom g key s e l d → c ≤ d :=
  route_optimal hwf hcl hnn hreach

/-- Witness for C1: the reference map, Home to Office under `risk`. -/
theorem claim_C1_optimal_cost_witness :
    (WF build_city_map ∧ Closed build_city_map ∧
      NonnegW build_city_map "risk" ∧
      (∃ l d, IsWalkFrom build_city_map "risk" "Home" "Office" l d)) ∧
    (∃ c p,
      calculate_optimal_route build_city_map "Home" "Office" "risk" =
        .found c p ∧
      IsWalkFrom build_city_map "risk" "Home" "Office" p c ∧
      ∀ l d, IsWalkFrom build_city_map "risk" "Home" "Office" l d → c ≤ d) := by
  have h1 : WF build_city_map := by unfold WF; decide
  have h2 : Closed build_city_map := by unfold Closed; decide
  have h3 : NonnegW build_city_map "risk" := by unfold NonnegW; decide
  have h4 : ∃ l d, IsWalkFrom build_city_map "risk" "Home" "Office" l d :=
    ⟨["Home", "A", "Office"], 7, rfl, rfl, rfl⟩
  exact ⟨⟨h1, h2, h3, h4⟩,
    claim_C1_optimal_cost build_city_map "risk" "Home" "Office" h1 h2 h3 h4⟩

/-- C2 counterexample: on the reference 7-edge map the code returns risk
cost 2 (not 4, and not via Home-B-C-Office) and distance cost 15 (not 25):
the spec overlooked the B-Office risk-1 edge and the Home-A-C-Office
distance-15 route. -/
theorem claim_C2_counterexample :
    ¬ ((calculate_optimal_route build_city_map "Home" "Office" "risk" =
          .found 4 ["Home", "B", "C", "Office"]) ∧
        resultCost
          (calculate_optimal_route build_city_map "Home" "Office" "distance") =
          some 25) := by
  decide

/-- C2 as amended: on the reference 7-edge map built by `build_city_map`,
the safest route is Home-B-Office with total risk 2, and the shortest route
is Home-A-C-Office with total distance 15. -/
theorem claim_C2_reference_routes :
    calculate_optimal_route build_city_map "Home" "Office" "risk" =
        .found 2 ["Home", "B", "Office"] ∧
      calculate_optimal_route build_city_map "Home" "Office" "distance" =
        .found 15 ["Home", "A", "C", "Office"] :=
  ⟨rfl, rfl⟩

/-- C3 counterexample: for a start node never added to the graph (and a
different goal), the code raises `KeyError` at `graph[node]` instead of
returning the unreachable sentinel. -/
theorem claim_C3_counterexample :
    calculate_optimal_route [] "s" "t" "risk" = .keyErr "s" ∧
      calculate_optimal_route [] "s" "t" "risk" ≠ .noPath :=
  ⟨rfl, by decide⟩

/-- C3 as amended: for every graph, weight key, and pair of distinct nodes
whose start was never added to the graph, `calculate_optimal_route` raises
`KeyError` on the start node (rather than treating it as having zero
neighbors and returning the unreachable sentinel). -/
theorem claim_C3_unknown_start (g : Graph) (key : String) (s e : Node)
    (hs : s ∉ graphNodes g) (hne : s ≠ e) :
    calculate_optimal_route g s e key = .keyErr s :=
  route_unknown_start hs hne

/-- Witness for the amended C3: the empty graph. -/
theorem claim_C3_unknown_start_witness :
    (("s" : Node) ∉ graphNodes ([] : Graph) ∧ ("s" : Node) ≠ "t") ∧
      calculate_optimal_route [] "s" "t" "risk" = .keyErr "s" := by
  have h1 : ("s" : Node) ∉ graphNodes ([] : Graph) := by decide
  have h2 : ("s" : Node) ≠ "t" := by decide
  exact ⟨⟨h1, h2⟩, claim_C3_unknown_start [] "risk" "s" "t" h1 h2⟩

/-- C4: whenever `calculate_optimal_route` returns a (necessarily non-empty)
path, it begins with the start, ends with the goal, contains no node twice,
and every consecutive pair is joined by an edge of the graph. `WF` is the
dict-uniqueness invariant of `networkx` graphs. -/
theorem claim_C4_path_valid (g : Graph) (key : String) (s e : Node) (c : Int)
    (p : List Node) (hwf : WF g)
    (h : calculate_optimal_route g s e key = .found c p) :
    p.head? = some s ∧ p.getLast? = some e ∧ p.Nodup ∧ chainB g p = true := by
  obtain ⟨h1, h2, h3, h4⟩ := route_found_props hwf h
  exact ⟨h1, h2, h3, chainB_of_walkCost h4⟩

/-- Witness for C4: the safest reference route. -/
theorem claim_C4_path_valid_witness :
    (WF build_city_map ∧
      calculate_optimal_route build_city_map "Home" "Office" "risk" =
        .found 2 ["Home", "B", "Office"]) ∧
    ((["Home", "B", "Office"] : List Node).head? = some "Home" ∧
      (["Home", "B", "Office"] : List Node).getLast? = some "Office" ∧
      (["Home", "B", "Office"] : List Node).Nodup ∧
      chainB build_city_map ["Home", "B", "Office"] = true) := by
  have h1 : WF build_city_map := by unfold WF; decide
  have h2 : calculate_optimal_route build_city_map "Home" "Office" "risk" =
      .found 2 ["Home", "B", "Office"] := rfl
  exact ⟨⟨h1, h2⟩,
    claim_C4_path_valid build_city_map "risk" "Home" "Office" 2
      ["Home", "B", "Office"] h1 h2⟩

/-- C5: summing the chosen key's value (missing values defaulting to 1) over
the consecutive edges of a returned path equals the returned cost exactly. -/
theorem claim_C5_cost_consistent (g : Graph) (key : String) (s e : Node)
    (c : Int) (p : List Node) (hwf : WF g)
    (h : calculate_optimal_route g s e key = .found c p) :
    walkCost g key p = some c :=
  (route_found_props hwf h).2.2.2

/-- Witness for C5: the shortest reference route. -/
theorem claim_C5_cost_consistent_witness :
    (WF build_city_map ∧
      calculate_optimal_route build_city_map "Home" "Office" "distance" =
        .found 15 ["Home", "A", "C", "Office"]) ∧
    walkCost build_city_map "distance" ["Home", "A", "C", "Office"] =
      some 15 := by
  have h1 : WF build_city_map := by unfold WF; decide
  have h2 : calculate_optimal_route build_city_map "Home" "Office" "distance" =
      .found 15 ["Home", "A", "C", "Office"] := rfl
  exact ⟨⟨h1, h2⟩,
    claim_C5_cost_consistent build_city_map "distance" "Home" "Office" 15
      ["Home", "A", "C", "Office"] h1 h2⟩

/-- C6: for every graph containing node X and every weight key, searching
from X to X returns cost 0 with the one-node path. -/
theorem claim_C6_trivial_path (g : Graph) (key : String) (X : Node)
    (hX : X ∈ graphNodes g) :
    calculate_optimal_route g X X key = .found 0 [X] :=
  route_trivial g key X

/-- Witness for C6: Home to Home on the reference map. -/
theorem claim_C6_trivial_path_witness :
    ("Home" : Node) ∈ graphNodes build_city_map ∧
      calculate_optimal_route build_city_map "Home" "Home" "risk" =
        .found 0 ["Home"] := by
  have h1 : ("Home" : Node) ∈ graphNodes build_city_map := by decide
  exact ⟨h1, claim_C6_trivial_path build_city_map "risk" "Home" h1⟩

/-- C7 counterexample: with an unknown start node, the goal is unreachable
but the code raises `KeyError` instead of returning the sentinel. -/
theorem claim_C7_counterexample :
    (¬ ∃ l d, IsWalkFrom ([] : Graph) "risk" "s" "t" l d) ∧
      calculate_optimal_route [] "s" "t" "risk" ≠ .noPath := by
  constructor
  · intro he
    obtain ⟨l, d, hld⟩ := he
    exact unreach_of_unknown_goal (by decide) (by decide) l d hld
  · decide

/-- C7 as amended: for every well-formed closed graph, weight key, and start
node present in the graph, if the goal is not reachable from the start
(including when the goal does not exist), `calculate_optimal_route` returns
the infinite-cost sentinel with the empty path and raises no error. -/
theorem claim_C7_unreachable (g : Graph) (key : String) (s e : Node)
    (hwf : WF g) (hcl : Closed g) (hs : s ∈ graphNodes g)
    (hunreach : ¬ ∃ l d, IsWalkFrom g key s e l d) :
    calculate_optimal_route g s e key = .noPath :=
  route_noPath_of_unreach hwf hcl (Or.inr hs)
    (fun l d hld => hunreach ⟨l, d, hld⟩)

/-- Witness for the amended C7: Home to the nonexistent node Nowhere. -/
theorem claim_C7_unreachable_witness :
    (WF build_city_map ∧ Closed build_city_map ∧
      ("Home" : Node) ∈ graphNodes build_city_map ∧
      ¬ ∃ l d, IsWalkFrom build_city_map "risk" "Home" "Nowhere" l d) ∧
    calculate_optimal_route build_city_map "Home" "Nowhere" "risk" =
      .noPath := by
  have h1 : WF build_city_map := by unfold WF; decide
  have h2 : Closed build_city_map := by unfold Closed; decide
  have h3 : ("Home" : Node) ∈ graphNodes build_city_map := by decide
  have h4 : ¬ ∃ l d, IsWalkFrom build_city_map "risk" "Home" "Nowhere" l d := by
    intro he
    obtain ⟨l, d, hld⟩ := he
    exact unreach_of_unknown_goal (by decide) (by decide) l d hld
  exact ⟨⟨h1, h2, h3, h4⟩,
    claim_C7_unreachable build_city_map "risk" "Home" "Nowhere" h1 h2 h3 h4⟩

/-- C8: an edge whose attribute dict lacks the requested weight key is
charged exactly weight 1 and no error is reported: the search behaves
identically on the graph where the default `(key, 1)` is inserted explicitly
on every such edge. -/
theorem claim_C8_default_weight (g : Graph) (s e : Node) (key : String) :
    calculate_optimal_route (patchGraph key g) s e key =
      calculate_optimal_route g s e key :=
  route_patch g s e key

/-- C9: for every finite closed graph and every choice of edge-weight values,
including zero and negative weights, the search terminates (never exhausts
the fuel bound that dominates its loop measure) and, for a start present in
the graph (or a trivial search), returns a `(cost, path)` result or the
unreachable sentinel without crashing. -/
theorem claim_C9_terminates (g : Graph) (key : String) (s e : Node)
    (hcl : Closed g) (hs : s = e ∨ s ∈ graphNodes g) :
    calculate_optimal_route g s e key ≠ .fuelOut ∧
      ((∃ c p, calculate_optimal_route g s e key = .found c p) ∨
        calculate_optimal_route g s e key = .noPath) :=
  ⟨route_ne_fuelOut g s e key, route_cases hcl hs⟩

/-- Witness for C9: the map with a negative weight. -/
theorem claim_C9_terminates_witness :
    (Closed negative_map ∧
      (("a" : Node) = "d" ∨ ("a" : Node) ∈ graphNodes negative_map)) ∧
    (calculate_optimal_route negative_map "a" "d" "w" ≠ .fuelOut ∧
      ((∃ c p, calculate_optimal_route negative_map "a" "d" "w" =
          .found c p) ∨
        calculate_optimal_route negative_map "a" "d" "w" = .noPath)) := by
  have h1 : Closed negative_map := by unfold Closed; decide
  have h2 : ("a" : Node) = "d" ∨ ("a" : Node) ∈ graphNodes negative_map := by
    right
    decide
  exact ⟨⟨h1, h2⟩, claim_C9_terminates negative_map "w" "a" "d" h1 h2⟩

/-- C10 counterexample: on a symmetric graph with a negative weight the two
directions return different costs (2 versus 1), so the claim fails for
arbitrary weight values. -/
theorem claim_C10_counterexample :
    Symm negative_map ∧
      calculate_optimal_route negative_map "a" "d" "w" =
        .found 2 ["a", "b", "d"] ∧
      calculate_optimal_route negative_map "d" "a" "w" =
        .found 1 ["d", "b", "c", "a"] ∧
      resultCost (calculate_optimal_route negative_map "a" "d" "w") ≠
        resultCost (calculate_optimal_route negative_map "d" "a" "w") := by
  refine ⟨by unfold Symm; decide, rfl, rfl, by decide⟩

/-- C10 as amended: for every well-formed closed symmetric graph whose values
for the chosen key are non-negative, and nodes a, b of the graph, the two
directions return the same cost, and one is the infinite sentinel exactly
when the other is. -/
theorem claim_C10_symmetric_cost (g : Graph) (key : String) (a b : Node)
    (hwf : WF g) (hcl : Closed g) (hsym : Symm g) (hnn : NonnegW g key)
    (ha : a ∈ graphNodes g) (hb : b ∈ graphNodes g) :
    resultCost (calculate_optimal_route g a b key) =
      resultCost (calculate_optimal_route g b a key) ∧
    (calculate_optimal_route g a b key = .noPath ↔
      calculate_optimal_route g b a key = .noPath) :=
  route_symm hwf hcl hsym hnn ha hb

/-- Witness for the amended C10: Home and Office on the reference map. -/
theorem claim_C10_symmetric_cost_witness :
    (WF build_city_map ∧ Closed build_city_map ∧ Symm build_city_map ∧
      NonnegW build_city_map "risk" ∧
      ("Home" : Node) ∈ graphNodes build_city_map ∧
      ("Office" : Node) ∈ graphNodes build_city_map) ∧
    (resultCost (calculate_optimal_route build_city_map "Home" "Office"
        "risk") =
      resultCost (calculate_optimal_route build_city_map "Office" "Home"
        "risk") ∧
    (calculate_optimal_route build_city_map "Home" "Office" "risk" =
        .noPath ↔
      calculate_optimal_route build_city_map "Office" "Home" "risk" =
        .noPath)) := by
  have h1 : WF build_city_map := by unfold WF; decide
  have h2 : Closed build_city_map := by unfold Closed; decide
  have h3 : Symm build_city_map := by unfold Symm; decide
  have h4 : NonnegW build_city_map "risk" := by unfold NonnegW; decide
  have h5 : ("Home" : Node) ∈ graphNodes build_city_map := by decide
  have h6 : ("Office" : Node) ∈ graphNodes build_city_map := by decide
  exact ⟨⟨h1, h2, h3, h4, h5, h6⟩,
    claim_C10_symmetric_cost build_city_map "risk" "Home" "Office"
      h1 h2 h3 h4 h5 h6⟩

end RiskRouter
